import Mathlib

/-!
# Teldrive driver: chunked upload engine

A shallow embedding of `drivers/teldrive/driver.go` (with the types of
`types.go` and `meta.go`): configuration validation in `Init`, upload
planning in `prepareUpload`, the chunk loop of `uploadMultipart`, the commit
in `createFile`, and `Put`, which composes them.

Conventions of the embedding.

* Go `int64` values are `Int`; every arithmetic result is reduced by
  `wrapInt64`.  Go `int` is taken as 64 bits wide.
* A Go run-time panic (integer division by zero, `make` with a negative
  length) is the error `Err.panic`.
* The remote service is an oracle giving, for each chunk number, the outcome
  of the part-upload request, and the outcome of the create-file request.
  Every request and every progress callback is appended to a trace.
* A stream is its name, its declared size and the finite list of bytes it
  yields before end-of-stream; the two need not agree.
* `float64` values are the rationals they denote, every operation rounded to
  nearest, ties to even, with 53 significant bits.
-/

namespace TeldriveDriver

/-! ## Machine integers -/

/-- Two's complement reduction of an integer to the range of Go `int64`. -/
def wrapInt64 (x : Int) : Int := (x + 2 ^ 63) % 2 ^ 64 - 2 ^ 63

/-- The values of Go `int64`. -/
def isInt64 (x : Int) : Prop := -(2 : Int) ^ 63 ≤ x ∧ x < 2 ^ 63

instance (x : Int) : Decidable (isInt64 x) := by unfold isInt64; infer_instance

/-! ## Types (`meta.go`, `types.go`) -/

/-- One byte of a stream or request body. -/
abbrev Byte := Fin 256

/-- Finite values of Go `float64`, as the rationals they denote. -/
abbrev F64 := ℚ

/-- The driver configuration, `Addition` in `meta.go`. -/
structure Addition where
  Address : String
  ChunkSize : Int
  Cookie : String
  UploadConcurrency : Int
  ChannelID : Int
  EncryptFiles : Bool
  UploadHost : String
deriving DecidableEq, Repr

/-- The driver instance, `Teldrive` in `driver.go` (the HTTP client is
represented by the trace and the oracles). -/
structure Teldrive extends Addition where
  userId : Int
  rootFolderID : String
deriving DecidableEq, Repr

structure Session where
  UserName : String
  UserId : Int
  Hash : String
deriving DecidableEq, Repr

structure FileInfo where
  Id : String
  Name : String
  MimeType : String
  Size : Int
  ParentId : String
  Type_ : String
  ModTime : Nat
deriving DecidableEq, Repr

structure PartFile where
  Name : String
  PartId : Int
  PartNo : Int
  TotalParts : Int
  Size : Int
  ChannelID : Int
  Encrypted : Bool
  Salt : String
deriving DecidableEq, Repr

structure FilePart where
  ID : Int
  Salt : String
deriving DecidableEq, Repr

structure CreateFileRequest where
  Name : String
  Type_ : String
  MimeType : String
  Size : Int
  ChannelID : Int
  Encrypted : Bool
  Parts : List FilePart
  ParentId : String
  ModTime : Nat
deriving DecidableEq, Repr

structure UploadInfo where
  ExistingChunks : List (Int × PartFile)
  UploadID : String
  ChannelID : Int
  EncryptFile : Bool
  ChunkSize : Int
  TotalChunks : Int
  FileChunks : List FilePart
  FileName : String
  Dir : String
deriving DecidableEq, Repr

/-- The fields of `model.Obj` the driver reads and writes. -/
structure Obj where
  ID : String
  Name : String
  Size : Int
  Modified : Nat
  IsFolder : Bool
deriving DecidableEq, Repr

/-- A `model.FileStreamer`: its name, its declared size (`GetSize`) and the
bytes it yields before end-of-stream. -/
structure FileStream where
  name : String
  size : Int
  data : List Byte
deriving DecidableEq, Repr

/-- Errors returned by the driver. -/
inductive Err where
  | badCookie
  | chunkSizeTooSmall (min : Int)
  | chunkSizeTooLarge (max : Int)
  | sessionFailed (detail : String)
  | invalidSession
  | rootLookupFailed (detail : String)
  | rootNotFound
  | unknownSize
  | unexpectedEOF
  | transport (detail : String)
  | chunkFailed (chunkNo : Int) (body : String)
  | createFailed (body : String)
  | panic (detail : String)
deriving DecidableEq, Repr

/-- The outcome of one HTTP call made through the client: a transport error
(`err != nil`), or a response with its status, its body, and the value the
client stored in the `SetResult` target. -/
inductive HttpResult (α : Type) where
  | failed (detail : String)
  | response (status : Int) (body : String) (result : α)
deriving DecidableEq, Repr

/-- The part-upload request of `uploadMultipart`. -/
structure UploadReq where
  url : String
  body : List Byte
  partName : String
  fileName : String
  partNo : String
  channelId : String
  encrypted : String
deriving DecidableEq, Repr

/-- What the driver does that is visible outside it. -/
inductive Event where
  | getSession
  | findRoot
  | uploadChunk (req : UploadReq)
  | progress (percent : F64)
  | createFile (req : CreateFileRequest)
  | deleteUpload (url : String)
deriving DecidableEq, Repr

/-- Everything outside the driver: the external functions it calls and the
answers of the remote service. -/
structure World where
  md5hex : String → String
  mimeType : String → String
  timeNow : Nat
  session : HttpResult Session
  rootLookup : HttpResult (Option (List FileInfo))
  upload : Int → HttpResult PartFile
  create : HttpResult FileInfo

deriving instance DecidableEq for Except

/-- A returned value or error together with the events that happened. -/
structure Outcome (α : Type) where
  result : Except Err α
  trace : List Event

def minChunkSize : Int := 1

def maxChunkSize : Int := 2000

/-! ## Formatting (`fmt`, `strconv`) -/

/-- The character of a decimal digit. -/
def digitChar (d : Nat) : Char := Char.ofNat (48 + d)

/-- Decimal digits of `n`, most significant first, in front of `acc`; the
first argument bounds the number of digits. -/
def decimalAux : Nat → Nat → List Char → List Char
  | 0, _, acc => acc
  | fuel + 1, n, acc =>
    if n < 10 then digitChar n :: acc
    else decimalAux fuel (n / 10) (digitChar (n % 10) :: acc)

/-- Decimal digits of a natural number ("0" for zero). -/
def decimal (n : Nat) : List Char := decimalAux (n + 1) n []

/-- The verb `%d` of `fmt`, also `strconv.Itoa` and `strconv.FormatInt(_, 10)`. -/
def fmtD (x : Int) : String :=
  if x < 0 then String.mk ('-' :: decimal x.natAbs) else String.mk (decimal x.natAbs)

/-- Zero padding of a digit string on the left up to a width. -/
def zeroPad (width : Nat) (ds : List Char) : List Char :=
  List.replicate (width - ds.length) '0' ++ ds

/-- The verb `%03d` of `fmt`: zero padded to width 3, the sign counted in the
width. -/
def fmtD03 (x : Int) : String :=
  if x < 0 then String.mk ('-' :: zeroPad 2 (decimal x.natAbs))
  else String.mk (zeroPad 3 (decimal x.natAbs))

/-- `strconv.FormatBool`. -/
def formatBool (b : Bool) : String := if b then "true" else "false"

/-- `strings.HasPrefix`. -/
def hasPrefix (s p : String) : Bool := p.data.isPrefixOf s.data

/-- `strings.TrimPrefix`. -/
def trimPrefix (s p : String) : String :=
  if hasPrefix s p then String.mk (s.data.drop p.data.length) else s

/-- `strings.TrimSuffix`. -/
def trimSuffix (s p : String) : String :=
  if p.data.isSuffixOf s.data then String.mk (s.data.take (s.data.length - p.data.length))
  else s

/-- The text of an error, as `fmt.Errorf` and `errors.New` build it; `detail` is
the text of a wrapped error or of a response. -/
def Err.message : Err → String
  | .badCookie => "cookie must start with \x27access_token=\x27"
  | .chunkSizeTooSmall min => "chunk size must be at least " ++ fmtD min ++ " MiB"
  | .chunkSizeTooLarge max => "chunk size must be at most " ++ fmtD max ++ " MiB"
  | .sessionFailed detail => "failed to get session: " ++ detail
  | .invalidSession => "invalid session"
  | .rootLookupFailed detail => detail
  | .rootNotFound => "couldn\x27t find root directory"
  | .unknownSize => "teldrive can\x27t upload files with unknown size"
  | .unexpectedEOF => "unexpected EOF"
  | .transport detail => detail
  | .chunkFailed chunkNo body => "failed to upload chunk " ++ fmtD chunkNo ++ ": " ++ body
  | .createFailed body => "failed to create file: " ++ body
  | .panic detail => "panic: " ++ detail

/-! ## `float64` arithmetic -/

/-- Rounding of a rational to the nearest integer, ties to the even one. -/
def roundHalfEven (q : ℚ) : Int :=
  if q - ⌊q⌋ < 1 / 2 then ⌊q⌋
  else if 1 / 2 < q - ⌊q⌋ then ⌊q⌋ + 1
  else if ⌊q⌋ % 2 = 0 then ⌊q⌋ else ⌊q⌋ + 1

/-- The spacing of `float64` values around `x`: 53 significant bits, the
exponent not below that of the subnormal numbers. -/
def ulp (x : ℚ) : ℚ := (2 : ℚ) ^ (max (Int.log 2 |x|) (-1022) - 52)

/-- IEEE 754 rounding to nearest, ties to even, of a rational to `float64`.
Results beyond the largest finite `float64` are not modelled; the values the
driver computes lie between 0 and 2^63. -/
def roundF64 (x : ℚ) : F64 := if x = 0 then 0 else (roundHalfEven (x / ulp x) : ℚ) * ulp x

/-- The conversion `float64(x)` of an `int64`. -/
def f64OfInt (x : Int) : F64 := roundF64 x

/-- Division of `float64` values (divisor not zero). -/
def f64Div (a b : F64) : F64 := roundF64 (a / b)

/-- Multiplication of `float64` values. -/
def f64Mul (a b : F64) : F64 := roundF64 (a * b)

/-! ## `Init` -/

/-- Lines 46-64 of `Init`: the checks and defaults applied to the
configuration before the HTTP client is created and used. -/
def initConfig (d : Teldrive) : Except Err Teldrive :=
  if d.Cookie = "" ∨ hasPrefix d.Cookie "access_token=" = false then
    .error .badCookie
  else
    let d := if d.UploadConcurrency = 0 then { d with UploadConcurrency := 4 } else d
    let d := if d.ChunkSize = 0 then { d with ChunkSize := 10 } else d
    if d.ChunkSize < minChunkSize then
      .error (.chunkSizeTooSmall minChunkSize)
    else if d.ChunkSize > maxChunkSize then
      .error (.chunkSizeTooLarge maxChunkSize)
    else
      .ok d

/-- The lookup of the root folder, `getRootID`; `tr` is the trace so far. -/
def getRootID (w : World) (tr : List Event) : Outcome String :=
  match w.rootLookup with
  | .failed e => ⟨.error (.transport e), tr ++ [.findRoot]⟩
  | .response _ _ none => ⟨.error (.rootLookupFailed "unmarshal"), tr ++ [.findRoot]⟩
  | .response _ _ (some []) => ⟨.error .rootNotFound, tr ++ [.findRoot]⟩
  | .response _ _ (some (f :: _)) => ⟨.ok f.Id, tr ++ [.findRoot]⟩

/-- The method `Init`: validation, then the session and root lookups. -/
def Init (d : Teldrive) (w : World) : Outcome Teldrive :=
  match initConfig d with
  | .error e => ⟨.error e, []⟩
  | .ok d =>
    let d := { d with Address := trimSuffix d.Address "/" }
    match w.session with
    | .failed e => ⟨.error (.sessionFailed e), [.getSession]⟩
    | .response status body session =>
      if status ≠ 200 then ⟨.error (.sessionFailed body), [.getSession]⟩
      else if session.UserId = 0 then ⟨.error .invalidSession, [.getSession]⟩
      else
        let d := { d with userId := session.UserId }
        let root := getRootID w [.getSession]
        match root.result with
        | .error e => ⟨.error e, root.trace⟩
        | .ok rootID => ⟨.ok { d with rootFolderID := rootID }, root.trace⟩

/-! ## Upload planning -/

/-- The function `getMD5Hash`; MD5 and the hexadecimal encoding are library
functions, given by the world. -/
def getMD5Hash (w : World) (text : String) : String := w.md5hex text

/-- The string `fmt.Sprintf("%s:%s:%d:%d", dest, name, size, userId)` that
`prepareUpload` hashes. -/
def uploadKey (dest name : String) (size userId : Int) : String :=
  dest ++ ":" ++ name ++ ":" ++ fmtD size ++ ":" ++ fmtD userId

/-- The method `prepareUpload`. -/
def prepareUpload (w : World) (d : Teldrive) (dstDir : Obj) (stream : FileStream) :
    Except Err UploadInfo :=
  let fileName := stream.name
  let uploadID := getMD5Hash w (uploadKey dstDir.ID fileName stream.size d.userId)
  let chunkSize := wrapInt64 (wrapInt64 (d.ChunkSize * 1024) * 1024)
  if chunkSize = 0 then .error (.panic "integer divide by zero")
  else
    let totalChunks := wrapInt64 (stream.size.tdiv chunkSize)
    let totalChunks :=
      if stream.size.tmod chunkSize ≠ 0 then wrapInt64 (totalChunks + 1) else totalChunks
    .ok
      { ExistingChunks := []
        UploadID := uploadID
        ChannelID := d.ChannelID
        EncryptFile := d.EncryptFiles
        ChunkSize := chunkSize
        TotalChunks := totalChunks
        FileChunks := []
        FileName := fileName
        Dir := dstDir.ID }

/-! ## Chunk transfer -/

/-- The errors of `io.ReadFull` on a stream that ends. -/
inductive ReadErr where
  | eof
  | unexpectedEOF
deriving DecidableEq, Repr

/-- The call `io.ReadFull(stream, buf)` with `buf` a fresh zeroed buffer of `n`
bytes, on a stream that yields the bytes `s` and then ends: the buffer after
the call, the rest of the stream, and the error: `io.EOF` when no byte was
read, `io.ErrUnexpectedEOF` when some but not all were. -/
def readFull (s : List Byte) (n : Nat) : List Byte × List Byte × Option ReadErr :=
  if n ≤ s.length then (s.take n, s.drop n, none)
  else if s = [] then (List.replicate n 0, [], some .eof)
  else (s ++ List.replicate (n - s.length) 0, [], some .unexpectedEOF)

/-- The local variables of `uploadMultipart` that live across iterations, with
the position of the stream and the trace. -/
structure LoopState where
  uploadedSize : Int
  partsToCommit : List PartFile
  stream : List Byte
  trace : List Event

/-- Lines 346-349: the byte length `n` of chunk `chunkNo`. -/
def chunkLen (size : Int) (info : UploadInfo) (totalChunks uploadedSize chunkNo : Int) : Int :=
  if chunkNo = totalChunks then wrapInt64 (size - uploadedSize) else info.ChunkSize

/-- Lines 351-354: the part name of chunk `chunkNo`. -/
def chunkName (info : UploadInfo) (totalChunks chunkNo : Int) : String :=
  if totalChunks > 1 then info.FileName ++ ".part." ++ fmtD03 chunkNo else info.FileName

/-- Line 393: the value handed to the progress callback. -/
def progressPercent (uploadedSize size : Int) : F64 :=
  f64Mul (f64Div (f64OfInt uploadedSize) (f64OfInt size)) 100

/-- The body of the loop of `uploadMultipart` (lines 346-394) for one chunk:
the error it returns with, if any, and the state after it. -/
def uploadChunk (d : Teldrive) (w : World) (size : Int) (info : UploadInfo) (up : Bool)
    (totalChunks chunkNo : Int) (st : LoopState) : Option Err × LoopState :=
  let n := chunkLen size info totalChunks st.uploadedSize chunkNo
  let chunkName := chunkName info totalChunks chunkNo
  if n < 0 then (some (.panic "makeslice: len out of range"), st)
  else
    match readFull st.stream n.toNat with
    | (_, _, some .unexpectedEOF) => (some .unexpectedEOF, st)
    | (chunkData, rest, _) =>
      let uploadURL := "/api/uploads/" ++ info.UploadID
      let uploadURL := if d.UploadHost ≠ "" then d.UploadHost ++ uploadURL else uploadURL
      let req : UploadReq :=
        { url := uploadURL
          body := chunkData
          partName := chunkName
          fileName := info.FileName
          partNo := fmtD chunkNo
          channelId := fmtD info.ChannelID
          encrypted := formatBool info.EncryptFile }
      let st := { st with stream := rest, trace := st.trace ++ [.uploadChunk req] }
      match w.upload chunkNo with
      | .failed e => (some (.transport e), st)
      | .response status body partInfo =>
        if status ≠ 200 then (some (.chunkFailed chunkNo body), st)
        else
          let uploadedSize := wrapInt64 (st.uploadedSize + n)
          let st :=
            { st with
              uploadedSize := uploadedSize
              partsToCommit := st.partsToCommit ++ [partInfo] }
          if up then
            (none, { st with trace := st.trace ++ [.progress (progressPercent uploadedSize size)] })
          else (none, st)

/-- The loop `for chunkNo := 1; chunkNo <= totalChunks; chunkNo++` of
`uploadMultipart`, from the test of the condition for `chunkNo` on. The first
argument is the termination measure `totalChunks + 1 - chunkNo`, the number of
iterations left: it is zero exactly when the condition fails (`totalChunks`
stays below the largest `int64`, so the counter does not wrap). -/
def uploadLoop (d : Teldrive) (w : World) (size : Int) (info : UploadInfo) (up : Bool)
    (totalChunks : Int) : Nat → Int → LoopState → Option Err × LoopState
  | 0, _, st => (none, st)
  | left + 1, chunkNo, st =>
    if chunkNo ≤ totalChunks then
      match uploadChunk d w size info up totalChunks chunkNo st with
      | (some e, st) => (some e, st)
      | (none, st) => uploadLoop d w size info up totalChunks left (wrapInt64 (chunkNo + 1)) st
    else (none, st)

/-- The method `uploadMultipart`: the error it returns (if any), the upload
plan after it (`FileChunks` set on success), and the events. `up` says whether
the progress callback is non-nil. -/
def uploadMultipart (d : Teldrive) (w : World) (stream : FileStream) (uploadInfo : UploadInfo)
    (up : Bool) : Option Err × UploadInfo × List Event :=
  let totalChunks := uploadInfo.TotalChunks
  match uploadLoop d w stream.size uploadInfo up totalChunks totalChunks.toNat 1
      ⟨0, [], stream.data, []⟩ with
  | (some e, st) => (some e, uploadInfo, st.trace)
  | (none, st) =>
    let fileChunks := st.partsToCommit.map fun part => ({ ID := part.PartId, Salt := part.Salt } :
        FilePart)
    (none, { uploadInfo with FileChunks := fileChunks }, st.trace)

/-! ## Commit -/

/-- The function `fileToObj`. -/
def fileToObj (f : FileInfo) : Obj :=
  { ID := f.Id, Name := f.Name, Size := f.Size, Modified := f.ModTime,
    IsFolder := f.Type_ = "folder" }

/-- The method `createFile`; `tr` is the trace so far. -/
def createFile (w : World) (stream : FileStream) (uploadInfo : UploadInfo) (tr : List Event) :
    Outcome Obj :=
  let req : CreateFileRequest :=
    { Name := uploadInfo.FileName
      Type_ := "file"
      ParentId := uploadInfo.Dir
      MimeType := w.mimeType uploadInfo.FileName
      Size := stream.size
      Parts := uploadInfo.FileChunks
      ChannelID := uploadInfo.ChannelID
      Encrypted := uploadInfo.EncryptFile
      ModTime := w.timeNow }
  let tr := tr ++ [.createFile req]
  match w.create with
  | .failed e => ⟨.error (.transport e), tr⟩
  | .response status body fileInfo =>
    if status ≠ 200 then ⟨.error (.createFailed body), tr⟩
    else if stream.size > 0 then
      ⟨.ok (fileToObj fileInfo), tr ++ [.deleteUpload ("/api/uploads/" ++ uploadInfo.UploadID)]⟩
    else ⟨.ok (fileToObj fileInfo), tr⟩

/-- The method `Put`. -/
def Put (d : Teldrive) (w : World) (dstDir : Obj) (stream : FileStream) (up : Bool) :
    Outcome Obj :=
  if stream.size < 0 then ⟨.error .unknownSize, []⟩
  else
    match prepareUpload w d dstDir stream with
    | .error e => ⟨.error e, []⟩
    | .ok uploadInfo =>
      if stream.size > 0 then
        match uploadMultipart d w stream uploadInfo up with
        | (some e, _, tr) => ⟨.error e, tr⟩
        | (none, uploadInfo, tr) => createFile w stream uploadInfo tr
      else createFile w stream uploadInfo []

/-! ## Observations on a trace -/

/-- The part-upload requests of a trace, in order. -/
def uploadsOf : List Event → List UploadReq
  | [] => []
  | .uploadChunk r :: es => r :: uploadsOf es
  | _ :: es => uploadsOf es

/-- The create-file requests of a trace, in order. -/
def createsOf : List Event → List CreateFileRequest
  | [] => []
  | .createFile r :: es => r :: createsOf es
  | _ :: es => createsOf es

/-- The values given to the progress callback, in order. -/
def progressOf : List Event → List F64
  | [] => []
  | .progress v :: es => v :: progressOf es
  | _ :: es => progressOf es

/-! ## Closed forms of a planned upload -/

/-- The plan `prepareUpload` returns when no arithmetic overflows. -/
def planOf (w : World) (d : Teldrive) (dstDir : Obj) (stream : FileStream) : UploadInfo :=
  { ExistingChunks := []
    UploadID := getMD5Hash w (uploadKey dstDir.ID stream.name stream.size d.userId)
    ChannelID := d.ChannelID
    EncryptFile := d.EncryptFiles
    ChunkSize := d.ChunkSize * 1024 * 1024
    TotalChunks :=
      if stream.size % (d.ChunkSize * 1024 * 1024) ≠ 0 then
        stream.size / (d.ChunkSize * 1024 * 1024) + 1
      else stream.size / (d.ChunkSize * 1024 * 1024)
    FileChunks := []
    FileName := stream.name
    Dir := dstDir.ID }

/-- The stream offset at which chunk `k` starts under a plan. -/
def planOff (size cs k : Int) : Int := min (cs * (k - 1)) size

/-- The byte length of chunk `k` under a plan. -/
def planLen (size cs k : Int) : Int := planOff size cs (k + 1) - planOff size cs k

/-- What reading chunk `k` from the stream gives. -/
def planRead (data : List Byte) (size cs k : Int) : List Byte × List Byte × Option ReadErr :=
  readFull (data.drop (planOff size cs k).toNat) (planLen size cs k).toNat

/-- The request `uploadMultipart` issues for chunk `k`. -/
def planReq (d : Teldrive) (info : UploadInfo) (data : List Byte) (size T k : Int) : UploadReq :=
  { url := if d.UploadHost ≠ "" then d.UploadHost ++ ("/api/uploads/" ++ info.UploadID)
           else "/api/uploads/" ++ info.UploadID
    body := (planRead data size info.ChunkSize k).1
    partName := chunkName info T k
    fileName := info.FileName
    partNo := fmtD k
    channelId := fmtD info.ChannelID
    encrypted := formatBool info.EncryptFile }

/-- The part descriptor of chunk `k` when its upload answered with status 200. -/
def okPart (w : World) (k : Int) : Option PartFile :=
  match w.upload k with
  | .failed _ => none
  | .response status _ p => if status = 200 then some p else none

/-- The events of the iteration for chunk `k` when the read does not fail. -/
def planEvents (d : Teldrive) (w : World) (info : UploadInfo) (data : List Byte) (up : Bool)
    (size T k : Int) : List Event :=
  .uploadChunk (planReq d info data size T k) ::
    (if up = true ∧ (okPart w k).isSome then
      [.progress (progressPercent (planOff size info.ChunkSize (k + 1)) size)] else [])

/-- A consistent plan: positive chunk size, and as many chunks as the size needs. -/
structure PlanOK (size cs T : Int) : Prop where
  cs_pos : 0 < cs
  T_pos : 1 ≤ T
  lower : cs * (T - 1) < size
  upper : size ≤ cs * T
  size_lt : size < 2 ^ 63
  T_lt : T < 2 ^ 62

/-- The loop invariant at the start of the iteration for chunk `k`. -/
def LoopInv (data : List Byte) (size cs k : Int) (st : LoopState) : Prop :=
  st.uploadedSize = planOff size cs k ∧ st.stream = data.drop (planOff size cs k).toNat

/-- The state after the iteration for chunk `k` when its request was issued but
the chunk was not accepted. -/
def issuedState (d : Teldrive) (info : UploadInfo) (data : List Byte) (size T k : Int)
    (st : LoopState) : LoopState :=
  { st with
    stream := (planRead data size info.ChunkSize k).2.1
    trace := st.trace ++ [.uploadChunk (planReq d info data size T k)] }

/-- The state after the iteration for chunk `k` when the chunk was accepted. -/
def acceptedState (d : Teldrive) (info : UploadInfo) (data : List Byte) (up : Bool)
    (size T k : Int) (p : PartFile) (st : LoopState) : LoopState :=
  { uploadedSize := planOff size info.ChunkSize (k + 1)
    partsToCommit := st.partsToCommit ++ [p]
    stream := (planRead data size info.ChunkSize k).2.1
    trace := st.trace ++ (.uploadChunk (planReq d info data size T k) ::
      (if up = true then
        [.progress (progressPercent (planOff size info.ChunkSize (k + 1)) size)] else [])) }

/-- The closed form of a run of the loop that starts at chunk `k` in state `st`
with `left` iterations to go and ends with `out`: `m` requests were issued. -/
def LoopRun (d : Teldrive) (w : World) (info : UploadInfo) (data : List Byte) (up : Bool)
    (size T k : Int) (left : Nat) (st : LoopState) (out : Option Err × LoopState) : Prop :=
  ∃ m : Nat, m ≤ left ∧
    out.2.trace =
      st.trace ++ (List.range m).flatMap (fun i : Nat => planEvents d w info data up size T (k + (i
          : Int))) ∧
    (∀ i : Nat, i < m → (planRead data size info.ChunkSize (k + i)).2.2 ≠ some .unexpectedEOF) ∧
    (∀ i : Nat, i + 1 < m → (okPart w (k + i)).isSome = true) ∧
    ((out.1 = none ∧ m = left ∧
        out.2.partsToCommit =
          st.partsToCommit ++ (List.range m).filterMap (fun i : Nat => okPart w (k + (i : Int))) ∧
        ∀ i : Nat, i < m → (okPart w (k + i)).isSome = true) ∨
      (out.1 = some .unexpectedEOF ∧ m < left ∧
        (planRead data size info.ChunkSize (k + m)).2.2 = some .unexpectedEOF ∧
        ∀ i : Nat, i < m → (okPart w (k + i)).isSome = true) ∨
      (∃ (j : Nat) (e : String), m = j + 1 ∧ w.upload (k + j) = .failed e ∧
        out.1 = some (.transport e)) ∨
      (∃ (j : Nat) (s : Int) (body : String) (p : PartFile), m = j + 1 ∧
        w.upload (k + j) = .response s body p ∧ s ≠ 200 ∧
        out.1 = some (.chunkFailed (k + j) body)))

/-- The run of the loop inside `uploadMultipart`. -/
def loopOf (d : Teldrive) (w : World) (stream : FileStream) (info : UploadInfo) (up : Bool) :
    Option Err × LoopState :=
  uploadLoop d w stream.size info up info.TotalChunks info.TotalChunks.toNat 1
    ⟨0, [], stream.data, []⟩

/-- The request `createFile` sends. -/
def commitReq (w : World) (stream : FileStream) (info : UploadInfo) : CreateFileRequest :=
  { Name := info.FileName
    Type_ := "file"
    ParentId := info.Dir
    MimeType := w.mimeType info.FileName
    Size := stream.size
    Parts := info.FileChunks
    ChannelID := info.ChannelID
    Encrypted := info.EncryptFile
    ModTime := w.timeNow }

/-- The parts `uploadMultipart` stores in the plan on success. -/
def partsOf (st : LoopState) : List FilePart :=
  st.partsToCommit.map fun part => ({ ID := part.PartId, Salt := part.Salt } : FilePart)

/-- The number a string of decimal digits denotes. -/
def parseDec (ds : List Char) : Nat := ds.foldl (fun a c => 10 * a + (c.toNat - 48)) 0

/-- A decimal digit character. -/
def isDigitChar (c : Char) : Prop := 48 ≤ c.toNat ∧ c.toNat ≤ 57

/-! ## Sample inputs -/

/-- A remote service that accepts every request: chunk `k` gets part id `k`. -/
def sampleWorld : World where
  md5hex := id
  mimeType := fun _ => "application/octet-stream"
  timeNow := 0
  session := .response 200 "" { UserName := "user", UserId := 7, Hash := "h" }
  rootLookup := .response 200 ""
    (some [{ Id := "root", Name := "root", MimeType := "", Size := 0, ParentId := "",
             Type_ := "folder", ModTime := 0 }])
  upload := fun k => .response 200 ""
    { Name := "", PartId := k, PartNo := k, TotalParts := 0, Size := 0, ChannelID := 3,
      Encrypted := false, Salt := "salt" }
  create := .response 200 ""
    { Id := "file", Name := "a.bin", MimeType := "", Size := 5, ParentId := "dir",
      Type_ := "file", ModTime := 0 }

/-- The part descriptor the client holds when the response carried none. -/
def emptyPart : PartFile :=
  { Name := "", PartId := 0, PartNo := 0, TotalParts := 0, Size := 0, ChannelID := 0,
    Encrypted := false, Salt := "" }

/-- A remote service that answers every chunk upload with status 500. -/
def rejectingWorld : World :=
  { sampleWorld with upload := fun _ => .response 500 "server error" emptyPart }

/-- A driver configured with chunks of 1 MiB. -/
def sampleDriver : Teldrive where
  Address := "http://teldrive.example"
  ChunkSize := 1
  Cookie := "access_token=abc"
  UploadConcurrency := 4
  ChannelID := 3
  EncryptFiles := false
  UploadHost := ""
  userId := 7
  rootFolderID := "root"

/-- A destination folder. -/
def sampleDir : Obj := { ID := "dir", Name := "dir", Size := 0, Modified := 0, IsFolder := true }

/-- A stream of five bytes that holds what it declares. -/
def sampleStream : FileStream := { name := "a.bin", size := 5, data := [1, 2, 3, 4, 5] }

/-- A stream that declares five bytes and holds two. -/
def shortStream : FileStream := { name := "a.bin", size := 5, data := [1, 2] }

/-- A stream that declares five bytes and is empty. -/
def emptyStream : FileStream := { name := "a.bin", size := 5, data := [] }

/-- A stream of size zero. -/
def zeroStream : FileStream := { name := "a.bin", size := 0, data := [] }

/-- A stream of two MiB and three bytes, all zero: three chunks of 1 MiB, 1 MiB
and 3 bytes. -/
def threeChunkStream : FileStream :=
  { name := "a.bin", size := 2097155, data := List.replicate 2097155 0 }

/-! ## Lemmas -/

theorem wrapInt64_eq_self {x : Int} (h : isInt64 x) : wrapInt64 x = x := by
  unfold isInt64 at h
  unfold wrapInt64
  omega

theorem chunkBytes_eq {c : Int} (h1 : 1 ≤ c) (h2 : c ≤ 2000) :
    wrapInt64 (wrapInt64 (c * 1024) * 1024) = c * 1024 * 1024 := by
  rw [wrapInt64_eq_self (x := c * 1024) (by unfold isInt64; omega)]
  rw [wrapInt64_eq_self (by unfold isInt64; omega)]

/-- The number of chunks planned for `size` bytes in chunks of `cs` bytes, as
`prepareUpload` computes it when nothing overflows. -/
theorem ceil_div_eq {size cs : Int} (hcs : 0 < cs) :
    (if size % cs ≠ 0 then size / cs + 1 else size / cs) = ⌈(size : ℚ) / (cs : ℚ)⌉ := by
  symm
  rw [Int.ceil_eq_iff]
  have hcq : (0 : ℚ) < (cs : ℚ) := by exact_mod_cast hcs
  have hdm := Int.emod_add_ediv size cs
  have hm0 := Int.emod_nonneg size (ne_of_gt hcs)
  have hm1 := Int.emod_lt_of_pos size hcs
  have hq : (size : ℚ) = (size % cs : Int) + cs * (size / cs : Int) := by exact_mod_cast hdm.symm
  split
  · rename_i h
    have hpos : 0 < size % cs := by omega
    constructor
    · rw [lt_div_iff₀ hcq]
      push_cast
      have : (0 : ℚ) < ((size % cs : Int) : ℚ) := by exact_mod_cast hpos
      push_cast at hq
      nlinarith
    · rw [div_le_iff₀ hcq]
      have : ((size % cs : Int) : ℚ) < cs := by exact_mod_cast hm1
      push_cast at hq ⊢
      nlinarith
  · rename_i h
    have h0 : size % cs = 0 := by simpa using h
    rw [h0] at hq
    constructor
    · rw [lt_div_iff₀ hcq]
      push_cast at hq ⊢
      nlinarith
    · rw [div_le_iff₀ hcq]
      push_cast at hq ⊢
      nlinarith

theorem prepareUpload_ok (w : World) (d : Teldrive) (dstDir : Obj) (stream : FileStream)
    (hc1 : 1 ≤ d.ChunkSize) (hc2 : d.ChunkSize ≤ 2000)
    (hs0 : 0 ≤ stream.size) (hs1 : stream.size < 2 ^ 63) :
    prepareUpload w d dstDir stream = .ok (planOf w d dstDir stream) := by
  have hcs : 0 < d.ChunkSize * 1024 * 1024 := by omega
  have hcs2 : 1048576 ≤ d.ChunkSize * 1024 * 1024 := by omega
  have hq0 : 0 ≤ stream.size / (d.ChunkSize * 1024 * 1024) := Int.ediv_nonneg hs0 (le_of_lt hcs)
  have hq1 : stream.size / (d.ChunkSize * 1024 * 1024) ≤ stream.size :=
    Int.ediv_le_self _ hs0
  have hq2 : stream.size / (d.ChunkSize * 1024 * 1024) * 1048576 ≤ stream.size := by
    have := Int.ediv_mul_le stream.size (ne_of_gt hcs)
    nlinarith
  unfold prepareUpload planOf
  simp only [chunkBytes_eq hc1 hc2]
  rw [if_neg (ne_of_gt hcs)]
  rw [Int.tdiv_eq_ediv hs0 (le_of_lt hcs), Int.tmod_eq_emod hs0 (le_of_lt hcs)]
  rw [wrapInt64_eq_self (x := stream.size / _) (by unfold isInt64; omega)]
  rw [wrapInt64_eq_self (x := stream.size / _ + 1) (by unfold isInt64; omega)]

theorem getRootID_trace (w : World) (tr : List Event) :
    (getRootID w tr).trace = tr ++ [.findRoot] := by
  unfold getRootID
  split <;> rfl

theorem Init_of_initConfig_ok (d d1 : Teldrive) (w : World) (h : initConfig d = .ok d1) :
    (Init d w).trace ≠ [] ∧
      ∀ d2, (Init d w).result = .ok d2 → d2.ChunkSize = d1.ChunkSize := by
  unfold Init
  rw [h]
  dsimp only
  cases hs : w.session with
  | failed e => simp
  | response status body session =>
    dsimp only
    by_cases h200 : status = 200
    · by_cases hu : session.UserId = 0
      · simp [h200, hu]
      · simp only [h200, hu, ne_eq, not_true_eq_false, if_false]
        cases hr : (getRootID w [.getSession]).result with
        | error e =>
          simp [getRootID_trace]
        | ok root =>
          simp only [getRootID_trace]
          refine ⟨by simp, ?_⟩
          intro d2 h2
          injection h2 with h2
          rw [← h2]
    · simp [h200]

theorem initConfig_in_range (d : Teldrive)
    (hc : hasPrefix d.Cookie "access_token=" = true) (h0 : 0 ≤ d.ChunkSize)
    (h1 : d.ChunkSize ≤ 2000) :
    ∃ d', initConfig d = .ok d' ∧
      d'.ChunkSize = (if d.ChunkSize = 0 then 10 else d.ChunkSize) := by
  have hne : d.Cookie ≠ "" := by
    intro h
    rw [h] at hc
    revert hc
    decide
  by_cases hz : d.ChunkSize = 0
  · by_cases hu : d.UploadConcurrency = 0 <;>
      simp [initConfig, hc, hne, hz, minChunkSize, maxChunkSize, hu]
  · have h2 : ¬ d.ChunkSize < 1 := by omega
    have h3 : ¬ d.ChunkSize > 2000 := by omega
    by_cases hu : d.UploadConcurrency = 0 <;>
      simp [initConfig, hc, hne, hz, minChunkSize, maxChunkSize, hu, h2, h3]

theorem digitChar_toNat {d : Nat} (h : d < 10) : (digitChar d).toNat = 48 + d := by
  interval_cases d <;> rfl

theorem digitChar_isDigit {d : Nat} (h : d < 10) : isDigitChar (digitChar d) := by
  unfold isDigitChar
  rw [digitChar_toNat h]
  omega

theorem decimalAux_append : ∀ (fuel n : Nat) (acc : List Char),
    decimalAux fuel n acc = decimalAux fuel n [] ++ acc := by
  intro fuel
  induction fuel with
  | zero => intro n acc; simp [decimalAux]
  | succ fuel ih =>
    intro n acc
    unfold decimalAux
    by_cases h : n < 10
    · simp [h]
    · simp only [h, if_false]
      rw [ih (n / 10) (digitChar (n % 10) :: acc), ih (n / 10) [digitChar (n % 10)]]
      simp

theorem parseDec_decimalAux : ∀ (fuel n : Nat), n < fuel →
    parseDec (decimalAux fuel n []) = n := by
  intro fuel
  induction fuel with
  | zero => intro n h; omega
  | succ fuel ih =>
    intro n hn
    unfold decimalAux
    by_cases h : n < 10
    · simp [h, parseDec, digitChar_toNat h]
    · simp only [h, if_false]
      rw [decimalAux_append]
      have hlt : n / 10 < fuel := by omega
      have := ih (n / 10) hlt
      unfold parseDec at this ⊢
      rw [List.foldl_append, this]
      simp [digitChar_toNat (Nat.mod_lt n (by decide : 0 < 10))]
      omega

theorem decimalAux_digits : ∀ (fuel n : Nat), ∀ c ∈ decimalAux fuel n [], isDigitChar c := by
  intro fuel
  induction fuel with
  | zero => intro n c hc; simp [decimalAux] at hc
  | succ fuel ih =>
    intro n c hc
    unfold decimalAux at hc
    by_cases h : n < 10
    · simp only [h, if_true, List.mem_singleton] at hc
      rw [hc]
      exact digitChar_isDigit h
    · simp only [h, if_false] at hc
      rw [decimalAux_append] at hc
      rcases List.mem_append.mp hc with h1 | h1
      · exact ih _ c h1
      · simp only [List.mem_singleton] at h1
        rw [h1]
        exact digitChar_isDigit (Nat.mod_lt n (by decide))

theorem parseDec_decimal (n : Nat) : parseDec (decimal n) = n :=
  parseDec_decimalAux (n + 1) n (by omega)

theorem decimal_digits (n : Nat) : ∀ c ∈ decimal n, isDigitChar c :=
  decimalAux_digits (n + 1) n

theorem decimal_ne_nil (n : Nat) : decimal n ≠ [] := by
  unfold decimal decimalAux
  by_cases h : n < 10
  · simp [h]
  · simp only [h, if_false]
    rw [decimalAux_append]
    simp

theorem decimal_injective {a b : Nat} (h : decimal a = decimal b) : a = b := by
  rw [← parseDec_decimal a, ← parseDec_decimal b, h]

theorem parseDec_zeroPad (w : Nat) (ds : List Char) : parseDec (zeroPad w ds) = parseDec ds := by
  unfold zeroPad parseDec
  rw [List.foldl_append]
  congr 1
  generalize w - ds.length = n
  induction n with
  | zero => rfl
  | succ n ih =>
    rw [List.replicate_succ', List.foldl_append, ih]
    rfl

theorem zeroPad_digits (w : Nat) (ds : List Char) (h : ∀ c ∈ ds, isDigitChar c) :
    ∀ c ∈ zeroPad w ds, isDigitChar c := by
  intro c hc
  unfold zeroPad at hc
  rcases List.mem_append.mp hc with h1 | h1
  · rw [(List.mem_replicate.mp h1).2]
    unfold isDigitChar
    decide
  · exact h c h1

theorem zeroPad_length (w : Nat) (ds : List Char) : w ≤ (zeroPad w ds).length := by
  unfold zeroPad
  simp
  omega

theorem fmtD_injective {x y : Int} (h : fmtD x = fmtD y) : x = y := by
  unfold fmtD at h
  have hx := decimal_ne_nil x.natAbs
  have hy := decimal_ne_nil y.natAbs
  have hdash : ∀ n : Nat, ∀ t, decimal n ≠ '-' :: t := by
    intro n t heq
    have := decimal_digits n '-' (by rw [heq]; simp)
    unfold isDigitChar at this
    revert this
    decide
  replace h := congrArg String.data h
  by_cases h1 : x < 0 <;> by_cases h2 : y < 0 <;>
    simp only [h1, h2, if_true, if_false, apply_ite String.data, List.cons.injEq, true_and] at h
  · have := decimal_injective h
    omega
  · exact absurd h.symm (hdash _ _)
  · exact absurd h (hdash _ _)
  · have := decimal_injective h
    omega

theorem fmtD_no_colon (x : Int) : ':' ∉ (fmtD x).data := by
  have hd : ¬ isDigitChar ':' := by unfold isDigitChar; decide
  unfold fmtD
  split
  · simp only [List.mem_cons, not_or]
    exact ⟨by decide, fun h => hd (decimal_digits _ _ h)⟩
  · exact fun h => hd (decimal_digits _ _ h)

theorem fmtD03_injective {x y : Int} (hx : 0 ≤ x) (hy : 0 ≤ y) (h : fmtD03 x = fmtD03 y) :
    x = y := by
  unfold fmtD03 at h
  rw [if_neg (by omega), if_neg (by omega)] at h
  replace h := congrArg String.data h
  dsimp only at h
  have := congrArg parseDec h
  rw [parseDec_zeroPad, parseDec_zeroPad, parseDec_decimal, parseDec_decimal] at this
  omega

theorem split_first_colon : ∀ (a a' b b' : List Char), ':' ∉ a → ':' ∉ a' →
    a ++ ':' :: b = a' ++ ':' :: b' → a = a' ∧ b = b' := by
  intro a
  induction a with
  | nil =>
    intro a' b b' _ ha' h
    cases a' with
    | nil => simpa using h
    | cons c t =>
      simp only [List.nil_append, List.cons_append, List.cons.injEq] at h
      exact absurd (by rw [← h.1]; simp) ha'
  | cons x xs ih =>
    intro a' b b' ha ha' h
    cases a' with
    | nil =>
      simp only [List.nil_append, List.cons_append, List.cons.injEq] at h
      exact absurd (by rw [h.1]; simp) ha
    | cons c t =>
      simp only [List.cons_append, List.cons.injEq] at h
      obtain ⟨h1, h2⟩ := ih t b b' (fun hm => ha (List.mem_cons_of_mem _ hm))
        (fun hm => ha' (List.mem_cons_of_mem _ hm)) h.2
      exact ⟨by rw [h.1, h1], h2⟩

theorem split_last_colon (a a' b b' : List Char) (hb : ':' ∉ b) (hb' : ':' ∉ b')
    (h : a ++ ':' :: b = a' ++ ':' :: b') : a = a' ∧ b = b' := by
  have hr := congrArg List.reverse h
  simp only [List.reverse_append, List.reverse_cons, List.append_assoc, List.singleton_append]
    at hr
  obtain ⟨h1, h2⟩ := split_first_colon b.reverse b'.reverse a.reverse a'.reverse
    (by simpa using hb) (by simpa using hb') hr
  exact ⟨List.reverse_injective h2, List.reverse_injective h1⟩

theorem uploadKey_data (dest name : String) (size userId : Int) :
    (uploadKey dest name size userId).data =
      (dest.data ++ ':' :: name.data ++ ':' :: (fmtD size).data) ++ ':' :: (fmtD userId).data := by
  simp [uploadKey, String.data_append]

theorem uploadKey_injective {dest1 name1 dest2 name2 : String} {size1 uid1 size2 uid2 : Int}
    (h1 : ':' ∉ dest1.data) (h2 : ':' ∉ dest2.data)
    (h : uploadKey dest1 name1 size1 uid1 = uploadKey dest2 name2 size2 uid2) :
    dest1 = dest2 ∧ name1 = name2 ∧ size1 = size2 ∧ uid1 = uid2 := by
  have hd := congrArg String.data h
  rw [uploadKey_data, uploadKey_data] at hd
  obtain ⟨hrest, huid⟩ := split_last_colon _ _ _ _ (fmtD_no_colon uid1) (fmtD_no_colon uid2) hd
  have hrest' : (dest1.data ++ ':' :: name1.data) ++ ':' :: (fmtD size1).data =
      (dest2.data ++ ':' :: name2.data) ++ ':' :: (fmtD size2).data := by
    simpa using hrest
  obtain ⟨hdn, hsize⟩ := split_last_colon _ _ _ _ (fmtD_no_colon size1) (fmtD_no_colon size2)
    hrest'
  obtain ⟨hdest, hname⟩ := split_first_colon _ _ _ _ h1 h2 hdn
  exact ⟨String.ext hdest, String.ext hname, fmtD_injective (String.ext hsize),
    fmtD_injective (String.ext huid)⟩

theorem prepareUpload_uploadID {w : World} {d : Teldrive} {dstDir : Obj} {stream : FileStream}
    {info : UploadInfo} (h : prepareUpload w d dstDir stream = .ok info) :
    info.UploadID = w.md5hex (uploadKey dstDir.ID stream.name stream.size d.userId) := by
  unfold prepareUpload at h
  dsimp only at h
  split at h
  · exact absurd h (by simp)
  · injection h with h
    rw [← h]
    rfl

theorem digitChar_ne_zero {d : Nat} (h0 : 0 < d) (h : d < 10) : digitChar d ≠ '0' := by
  interval_cases d <;> decide

theorem decimalAux_head : ∀ (fuel n : Nat), 0 < n → n < fuel →
    ∃ c t, decimalAux fuel n [] = c :: t ∧ c ≠ '0' := by
  intro fuel
  induction fuel with
  | zero => intro n _ h; omega
  | succ fuel ih =>
    intro n hpos hn
    unfold decimalAux
    by_cases h : n < 10
    · exact ⟨digitChar n, [], by simp [h], digitChar_ne_zero hpos h⟩
    · simp only [h, if_false]
      rw [decimalAux_append]
      obtain ⟨c, t, hct, hc⟩ := ih (n / 10) (by omega) (by omega)
      exact ⟨c, t ++ [digitChar (n % 10)], by rw [hct]; rfl, hc⟩

theorem decimal_head {n : Nat} (h : 0 < n) : ∃ c t, decimal n = c :: t ∧ c ≠ '0' :=
  decimalAux_head (n + 1) n h (by omega)

theorem zeroPad_head {n : Nat} (h : 3 < (zeroPad 3 (decimal n)).length) :
    ∃ c t, zeroPad 3 (decimal n) = c :: t ∧ c ≠ '0' := by
  unfold zeroPad at h ⊢
  have hlen : 3 < (decimal n).length := by
    simp only [List.length_append, List.length_replicate] at h
    omega
  have h0 : 3 - (decimal n).length = 0 := by omega
  rw [h0]
  simp only [List.replicate_zero, List.nil_append]
  apply decimal_head
  by_contra hn
  have : n = 0 := by omega
  subst this
  revert hlen
  decide

theorem chunkName_multi (info : UploadInfo) {T k : Int} (hT : 1 < T) (hk : 0 ≤ k) :
    chunkName info T k =
      info.FileName ++ ".part." ++ String.mk (zeroPad 3 (decimal k.toNat)) := by
  unfold chunkName fmtD03
  have hn : k.natAbs = k.toNat := by omega
  rw [if_pos hT, if_neg (by omega), hn]

theorem append_left_cancel_string {a b c : String} (h : a ++ b = a ++ c) : b = c := by
  have := congrArg String.data h
  simp only [String.data_append] at this
  exact String.ext (List.append_cancel_left this)

theorem chunkName_injective (info : UploadInfo) {T j k : Int} (hT : 1 < T) (hj : 0 ≤ j)
    (hk : 0 ≤ k) (h : chunkName info T j = chunkName info T k) : j = k := by
  unfold chunkName at h
  rw [if_pos hT, if_pos hT] at h
  exact fmtD03_injective hj hk (append_left_cancel_string h)

theorem roundHalfEven_bounds (q : ℚ) : ⌊q⌋ ≤ roundHalfEven q ∧ roundHalfEven q ≤ ⌊q⌋ + 1 := by
  unfold roundHalfEven
  split
  · omega
  · split
    · omega
    · split <;> omega

theorem roundHalfEven_intCast (z : Int) : roundHalfEven (z : ℚ) = z := by
  unfold roundHalfEven
  simp

theorem roundHalfEven_mono {q q' : ℚ} (h : q ≤ q') : roundHalfEven q ≤ roundHalfEven q' := by
  have hf : ⌊q⌋ ≤ ⌊q'⌋ := Int.floor_le_floor h
  rcases lt_or_eq_of_le hf with hlt | heq
  · have := (roundHalfEven_bounds q).2
    have := (roundHalfEven_bounds q').1
    omega
  · have hr : q - ⌊q⌋ ≤ q' - ⌊q'⌋ := by
      rw [heq]
      linarith
    unfold roundHalfEven
    rw [heq]
    by_cases h1 : q - (⌊q'⌋ : ℚ) < 1 / 2
    · have h1' : q - (⌊q⌋ : ℚ) < 1 / 2 := by rw [heq]; exact h1
      rw [heq] at hr
      simp only [h1, if_true]
      split
      · exact le_refl _
      · split
        · omega
        · split <;> omega
    · rw [heq] at hr
      simp only [h1, if_false]
      by_cases h2 : 1 / 2 < q - (⌊q'⌋ : ℚ)
      · have h3 : ¬ (q' - (⌊q'⌋ : ℚ) < 1 / 2) := by linarith
        have h4 : 1 / 2 < q' - (⌊q'⌋ : ℚ) := by linarith
        simp only [h2, h3, h4, if_true, if_false]
        exact le_refl _
      · simp only [h2, if_false]
        have h3 : ¬ (q' - (⌊q'⌋ : ℚ) < 1 / 2) := by linarith
        simp only [h3, if_false]
        by_cases h4 : 1 / 2 < q' - (⌊q'⌋ : ℚ)
        · simp only [h4, if_true]
          split <;> omega
        · simp only [h4, if_false]
          exact le_refl _

theorem ulp_pos (x : ℚ) : 0 < ulp x := by
  unfold ulp
  positivity

theorem roundF64_nonneg {x : ℚ} (h : 0 ≤ x) : 0 ≤ roundF64 x := by
  unfold roundF64
  split
  · exact le_refl _
  · have hq : 0 ≤ x / ulp x := div_nonneg h (le_of_lt (ulp_pos x))
    have hfl : (0 : Int) ≤ ⌊x / ulp x⌋ := Int.floor_nonneg.mpr hq
    have := (roundHalfEven_bounds (x / ulp x)).1
    have hz : (0 : ℚ) ≤ (roundHalfEven (x / ulp x) : ℚ) := by exact_mod_cast (by omega : (0 : Int) ≤
        roundHalfEven (x / ulp x))
    exact mul_nonneg hz (le_of_lt (ulp_pos x))

theorem zpow_log_le {x : ℚ} (hx : 0 < x) : (2 : ℚ) ^ Int.log 2 x ≤ x := by
  have := Int.zpow_log_le_self (R := ℚ) (b := 2) (by norm_num) hx
  simpa using this

theorem lt_zpow_log_succ (x : ℚ) : x < (2 : ℚ) ^ (Int.log 2 x + 1) := by
  have := Int.lt_zpow_succ_log_self (R := ℚ) (b := 2) (by norm_num) x
  simpa using this

theorem pow53_mul (e : Int) :
    (((2 : Int) ^ 53 : Int) : ℚ) * (2 : ℚ) ^ (e - 52) = (2 : ℚ) ^ (e + 1) := by
  have h : (((2 : Int) ^ 53 : Int) : ℚ) = (2 : ℚ) ^ (53 : Int) := by norm_num
  rw [h, ← zpow_add₀ (by norm_num : (2 : ℚ) ≠ 0)]
  congr 1
  ring

theorem pow52_mul (e : Int) :
    (((2 : Int) ^ 52 : Int) : ℚ) * (2 : ℚ) ^ (e - 52) = (2 : ℚ) ^ e := by
  have h : (((2 : Int) ^ 52 : Int) : ℚ) = (2 : ℚ) ^ (52 : Int) := by norm_num
  rw [h, ← zpow_add₀ (by norm_num : (2 : ℚ) ≠ 0)]
  congr 1
  ring

/-- A positive rational rounds to at most the next power of two above its
binade. -/
theorem roundF64_le_pow {x : ℚ} (hx : 0 < x) :
    roundF64 x ≤ (2 : ℚ) ^ (max (Int.log 2 x) (-1022) + 1) := by
  have hu := ulp_pos x
  have hulp : ulp x = (2 : ℚ) ^ (max (Int.log 2 x) (-1022) - 52) := by
    unfold ulp
    rw [abs_of_pos hx]
  unfold roundF64
  rw [if_neg (ne_of_gt hx)]
  have hlt : x < (2 : ℚ) ^ (max (Int.log 2 x) (-1022) + 1) := by
    refine lt_of_lt_of_le (lt_zpow_log_succ x) ?_
    exact zpow_le_zpow_right₀ (by norm_num) (by omega)
  have hq : x / ulp x ≤ ((2 ^ 53 : Int) : ℚ) := by
    rw [div_le_iff₀ hu, hulp]
    have : (((2 : Int) ^ 53 : Int) : ℚ) * (2 : ℚ) ^ (max (Int.log 2 x) (-1022) - 52) =
        (2 : ℚ) ^ (max (Int.log 2 x) (-1022) + 1) := by
      exact pow53_mul _
    rw [this]
    exact le_of_lt hlt
  have hr := roundHalfEven_mono hq
  rw [roundHalfEven_intCast] at hr
  have hr' : (roundHalfEven (x / ulp x) : ℚ) ≤ ((2 ^ 53 : Int) : ℚ) := by exact_mod_cast hr
  calc (roundHalfEven (x / ulp x) : ℚ) * ulp x
      ≤ ((2 ^ 53 : Int) : ℚ) * ulp x := mul_le_mul_of_nonneg_right hr' (le_of_lt hu)
    _ = (2 : ℚ) ^ (max (Int.log 2 x) (-1022) + 1) := by
      rw [hulp]
      exact pow53_mul _

/-- A normal positive rational rounds to at least the power of two that opens
its binade. -/
theorem pow_le_roundF64 {y : ℚ} (hy : 0 < y) (hn : -1022 ≤ Int.log 2 y) :
    (2 : ℚ) ^ Int.log 2 y ≤ roundF64 y := by
  have hu := ulp_pos y
  have hulp : ulp y = (2 : ℚ) ^ (Int.log 2 y - 52) := by
    unfold ulp
    rw [abs_of_pos hy, max_eq_left hn]
  unfold roundF64
  rw [if_neg (ne_of_gt hy)]
  have hq : ((2 ^ 52 : Int) : ℚ) ≤ y / ulp y := by
    rw [le_div_iff₀ hu, hulp]
    have : (((2 : Int) ^ 52 : Int) : ℚ) * (2 : ℚ) ^ (Int.log 2 y - 52) =
        (2 : ℚ) ^ Int.log 2 y := by
      exact pow52_mul _
    rw [this]
    exact zpow_log_le hy
  have hr := roundHalfEven_mono hq
  rw [roundHalfEven_intCast] at hr
  have hr' : ((2 ^ 52 : Int) : ℚ) ≤ (roundHalfEven (y / ulp y) : ℚ) := by exact_mod_cast hr
  calc (2 : ℚ) ^ Int.log 2 y = ((2 ^ 52 : Int) : ℚ) * ulp y := by
        rw [hulp]
        exact (pow52_mul _).symm
    _ ≤ (roundHalfEven (y / ulp y) : ℚ) * ulp y := mul_le_mul_of_nonneg_right hr' (le_of_lt hu)

theorem roundF64_mono {x y : ℚ} (hx : 0 ≤ x) (hxy : x ≤ y) : roundF64 x ≤ roundF64 y := by
  rcases eq_or_lt_of_le hx with h0 | hpos
  · rw [← h0]
    have : roundF64 0 = 0 := by simp [roundF64]
    rw [this]
    exact roundF64_nonneg (le_trans hx hxy)
  have hy : 0 < y := lt_of_lt_of_le hpos hxy
  have hlog : Int.log 2 x ≤ Int.log 2 y := Int.log_mono_right hpos hxy
  rcases eq_or_lt_of_le (max_le_max_right (-1022) hlog) with heq | hlt
  · have hu : ulp x = ulp y := by
      unfold ulp
      rw [abs_of_pos hpos, abs_of_pos hy, heq]
    unfold roundF64
    rw [if_neg (ne_of_gt hpos), if_neg (ne_of_gt hy), hu]
    have hq : x / ulp y ≤ y / ulp y := div_le_div_of_nonneg_right hxy (le_of_lt (ulp_pos y))
    have := roundHalfEven_mono hq
    have hc : (roundHalfEven (x / ulp y) : ℚ) ≤ (roundHalfEven (y / ulp y) : ℚ) := by
      exact_mod_cast this
    exact mul_le_mul_of_nonneg_right hc (le_of_lt (ulp_pos y))
  · have hn : -1022 ≤ Int.log 2 y := by omega
    have hcy : max (Int.log 2 y) (-1022) = Int.log 2 y := max_eq_left hn
    rw [hcy] at hlt
    calc roundF64 x ≤ (2 : ℚ) ^ (max (Int.log 2 x) (-1022) + 1) := roundF64_le_pow hpos
      _ ≤ (2 : ℚ) ^ Int.log 2 y := zpow_le_zpow_right₀ (by norm_num) (by omega)
      _ ≤ roundF64 y := pow_le_roundF64 hy hn

theorem roundF64_exact {x : ℚ} (z : Int) (h : x / ulp x = z) : roundF64 x = x := by
  unfold roundF64
  split
  · rename_i h0
    exact h0.symm
  · rw [h, roundHalfEven_intCast, ← h]
    exact div_mul_cancel₀ x (ne_of_gt (ulp_pos x))

theorem roundF64_one : roundF64 1 = 1 := by
  apply roundF64_exact ((2 : Int) ^ 52)
  have hu : ulp 1 = (2 : ℚ) ^ (-52 : Int) := by
    unfold ulp
    rw [abs_one, Int.log_one_right]
    rfl
  rw [hu]
  norm_num

theorem log_hundred : Int.log 2 (100 : ℚ) = 6 := by
  have h1 : (6 : Int) ≤ Int.log 2 (100 : ℚ) :=
    (Int.zpow_le_iff_le_log (by norm_num) (by norm_num)).mp (by norm_num)
  have h2 : Int.log 2 (100 : ℚ) < 7 :=
    (Int.lt_zpow_iff_log_lt (by norm_num) (by norm_num)).mp (by norm_num)
  omega

theorem roundF64_hundred : roundF64 100 = 100 := by
  apply roundF64_exact (100 * (2 : Int) ^ 46)
  have hu : ulp 100 = (2 : ℚ) ^ (-46 : Int) := by
    unfold ulp
    rw [abs_of_pos (by norm_num : (0 : ℚ) < 100), log_hundred]
    rfl
  rw [hu]
  norm_num

theorem f64OfInt_pos {x : Int} (h : 1 ≤ x) : 1 ≤ f64OfInt x := by
  unfold f64OfInt
  have h1 : (1 : ℚ) ≤ (x : ℚ) := by exact_mod_cast h
  calc (1 : ℚ) = roundF64 1 := roundF64_one.symm
    _ ≤ roundF64 x := roundF64_mono (by norm_num) h1

theorem progressPercent_self {size : Int} (h : 0 < size) : progressPercent size size = 100 := by
  have hp := f64OfInt_pos (show 1 ≤ size by omega)
  unfold progressPercent f64Mul f64Div
  rw [div_self (by linarith), roundF64_one, one_mul, roundF64_hundred]

theorem progressPercent_mono {u u' size : Int} (h0 : 0 ≤ u) (h : u ≤ u') (hs : 0 < size) :
    progressPercent u size ≤ progressPercent u' size := by
  have hp := f64OfInt_pos (show 1 ≤ size by omega)
  have hu : f64OfInt u ≤ f64OfInt u' := by
    unfold f64OfInt
    exact roundF64_mono (by exact_mod_cast h0) (by exact_mod_cast h)
  have hu0 : 0 ≤ f64OfInt u := roundF64_nonneg (by exact_mod_cast h0)
  have hd : f64Div (f64OfInt u) (f64OfInt size) ≤ f64Div (f64OfInt u') (f64OfInt size) := by
    unfold f64Div
    exact roundF64_mono (div_nonneg hu0 (by linarith))
      (div_le_div_of_nonneg_right hu (by linarith))
  have hd0 : 0 ≤ f64Div (f64OfInt u) (f64OfInt size) :=
    roundF64_nonneg (div_nonneg hu0 (by linarith))
  unfold progressPercent f64Mul
  exact roundF64_mono (mul_nonneg hd0 (by norm_num))
    (mul_le_mul_of_nonneg_right hd (by norm_num))

theorem roundHalfEven_err (q : ℚ) : |(roundHalfEven q : ℚ) - q| ≤ 1 / 2 := by
  have h0 : (⌊q⌋ : ℚ) ≤ q := Int.floor_le q
  have h1 : q < (⌊q⌋ : ℚ) + 1 := Int.lt_floor_add_one q
  unfold roundHalfEven
  rw [abs_le]
  split
  · constructor <;> linarith
  · rename_i hlt
    split
    · push_cast
      constructor <;> linarith
    · rename_i hgt
      have heq : q - (⌊q⌋ : ℚ) = 1 / 2 := le_antisymm (not_lt.mp hgt) (not_lt.mp hlt)
      split
      · constructor <;> linarith
      · push_cast
        constructor <;> linarith

theorem roundF64_rel {x : ℚ} (hx : 0 < x) (hn : -1022 ≤ Int.log 2 x) :
    |roundF64 x - x| ≤ x / 2 ^ 53 := by
  have hu := ulp_pos x
  have hulp : ulp x = (2 : ℚ) ^ (Int.log 2 x - 52) := by
    unfold ulp
    rw [abs_of_pos hx, max_eq_left hn]
  have hle : ulp x * 2 ^ 52 ≤ x := by
    have := pow52_mul (Int.log 2 x)
    have h52 : (((2 : Int) ^ 52 : Int) : ℚ) = (2 : ℚ) ^ 52 := by norm_num
    rw [h52] at this
    rw [hulp, mul_comm, this]
    exact zpow_log_le hx
  unfold roundF64
  rw [if_neg (ne_of_gt hx)]
  have herr := roundHalfEven_err (x / ulp x)
  have hx' : x = x / ulp x * ulp x := (div_mul_cancel₀ x (ne_of_gt hu)).symm
  have : (roundHalfEven (x / ulp x) : ℚ) * ulp x - x =
      ((roundHalfEven (x / ulp x) : ℚ) - x / ulp x) * ulp x := by
    rw [sub_mul, ← hx']
  rw [this, abs_mul, abs_of_pos hu]
  calc |(roundHalfEven (x / ulp x) : ℚ) - x / ulp x| * ulp x
      ≤ 1 / 2 * ulp x := mul_le_mul_of_nonneg_right herr (le_of_lt hu)
    _ ≤ x / 2 ^ 53 := by
      rw [le_div_iff₀ (by positivity)]
      have : 1 / 2 * ulp x * 2 ^ 53 = ulp x * 2 ^ 52 := by ring
      rw [this]
      exact hle

theorem log_nonneg_of_le {x : ℚ} (e : Int) (hx : 0 < x) (h : (2 : ℚ) ^ e ≤ x) :
    e ≤ Int.log 2 x := by
  apply (Int.zpow_le_iff_le_log (R := ℚ) (b := 2) (by norm_num) hx).mp
  simpa using h

/-- A positive normal rational and its rounding differ by a factor between
`1 - 2^-53` and `1 + 2^-53`. -/
theorem roundF64_between {x : ℚ} (hx : 0 < x) (h : (2 : ℚ) ^ (-1022 : Int) ≤ x) :
    x * (1 - 1 / 2 ^ 53) ≤ roundF64 x ∧ roundF64 x ≤ x * (1 + 1 / 2 ^ 53) := by
  have := roundF64_rel hx (log_nonneg_of_le (-1022) hx h)
  rw [abs_le] at this
  constructor
  · have e : x * (1 - 1 / 2 ^ 53) = x - x / 2 ^ 53 := by ring
    rw [e]; linarith
  · have e : x * (1 + 1 / 2 ^ 53) = x + x / 2 ^ 53 := by ring
    rw [e]; linarith

theorem tiny_le {x : ℚ} (h : (1 : ℚ) / 2 ^ 70 ≤ x) : (2 : ℚ) ^ (-1022 : Int) ≤ x := by
  refine le_trans ?_ h
  have h1 : (1 : ℚ) / 2 ^ 70 = (2 : ℚ) ^ (-70 : Int) := by
    rw [zpow_neg, one_div]
    norm_cast
  rw [h1]
  exact zpow_le_zpow_right₀ (by norm_num) (by norm_num)

theorem progressPercent_err {u size : Int} (hu : 1 ≤ u) (hus : u ≤ size)
    (hs : size < 2 ^ 63) :
    |progressPercent u size - (u : ℚ) / (size : ℚ) * 100| ≤ 100 / 2 ^ 50 := by
  have hu1 : (1 : ℚ) ≤ (u : ℚ) := by exact_mod_cast hu
  have hs1 : (1 : ℚ) ≤ (size : ℚ) := by exact_mod_cast (by omega : (1 : Int) ≤ size)
  have hus' : (u : ℚ) ≤ (size : ℚ) := by exact_mod_cast hus
  have hs63 : (size : ℚ) ≤ 2 ^ 63 := by exact_mod_cast (le_of_lt hs)
  have hu0 : (0 : ℚ) < (u : ℚ) := by linarith
  have hs0 : (0 : ℚ) < (size : ℚ) := by linarith
  -- the two conversions
  obtain ⟨ha1, ha2⟩ := roundF64_between hu0 (tiny_le (le_trans (by norm_num) hu1))
  obtain ⟨hb1, hb2⟩ := roundF64_between hs0 (tiny_le (le_trans (by norm_num) hs1))
  set a := roundF64 (u : ℚ) with ha
  set b := roundF64 (size : ℚ) with hb
  set r := (u : ℚ) / (size : ℚ) with hr
  have hr0 : 0 < r := div_pos hu0 hs0
  have hr1 : r ≤ 1 := (div_le_one hs0).mpr hus'
  have hrs : r * (size : ℚ) = (u : ℚ) := div_mul_cancel₀ _ (ne_of_gt hs0)
  have hb0 : 0 < b := by
    have : (0 : ℚ) < (size : ℚ) * (1 - 1 / 2 ^ 53) := mul_pos hs0 (by norm_num)
    linarith
  have ha0 : 0 < a := by
    have : (0 : ℚ) < (u : ℚ) * (1 - 1 / 2 ^ 53) := mul_pos hu0 (by norm_num)
    linarith
  -- the quotient of the conversions
  have hq_up : a / b ≤ r * ((1 + 1 / 2 ^ 53) / (1 - 1 / 2 ^ 53)) := by
    rw [div_le_iff₀ hb0]
    have h1 : r * ((1 + 1 / 2 ^ 53) / (1 - 1 / 2 ^ 53)) * ((size : ℚ) * (1 - 1 / 2 ^ 53)) =
        (u : ℚ) * (1 + 1 / 2 ^ 53) := by
      rw [← hrs]
      field_simp
      ring
    have h2 : r * ((1 + 1 / 2 ^ 53) / (1 - 1 / 2 ^ 53)) * ((size : ℚ) * (1 - 1 / 2 ^ 53)) ≤
        r * ((1 + 1 / 2 ^ 53) / (1 - 1 / 2 ^ 53)) * b :=
      mul_le_mul_of_nonneg_left hb1 (by positivity)
    linarith
  have hq_lo : r * ((1 - 1 / 2 ^ 53) / (1 + 1 / 2 ^ 53)) ≤ a / b := by
    rw [le_div_iff₀ hb0]
    have h1 : r * ((1 - 1 / 2 ^ 53) / (1 + 1 / 2 ^ 53)) * ((size : ℚ) * (1 + 1 / 2 ^ 53)) =
        (u : ℚ) * (1 - 1 / 2 ^ 53) := by
      rw [← hrs]
      field_simp
      ring
    have h2 : r * ((1 - 1 / 2 ^ 53) / (1 + 1 / 2 ^ 53)) * b ≤
        r * ((1 - 1 / 2 ^ 53) / (1 + 1 / 2 ^ 53)) * ((size : ℚ) * (1 + 1 / 2 ^ 53)) :=
      mul_le_mul_of_nonneg_left hb2 (by
        apply mul_nonneg (le_of_lt hr0)
        norm_num)
    linarith
  have hab0 : 0 < a / b := div_pos ha0 hb0
  have hr_lo : (1 : ℚ) / 2 ^ 63 ≤ r := by
    rw [hr, le_div_iff₀ hs0]
    have : (1 : ℚ) / 2 ^ 63 * (size : ℚ) ≤ 1 / 2 ^ 63 * 2 ^ 63 :=
      mul_le_mul_of_nonneg_left hs63 (by norm_num)
    have e : (1 : ℚ) / 2 ^ 63 * 2 ^ 63 = 1 := by norm_num
    linarith
  have hab_lo : (1 : ℚ) / 2 ^ 64 ≤ a / b := by
    refine le_trans ?_ hq_lo
    have : (1 : ℚ) / 2 ^ 64 ≤ 1 / 2 ^ 63 * ((1 - 1 / 2 ^ 53) / (1 + 1 / 2 ^ 53)) := by norm_num
    refine le_trans this ?_
    exact mul_le_mul_of_nonneg_right hr_lo (by norm_num)
  obtain ⟨hq1, hq2⟩ := roundF64_between hab0
    (tiny_le (le_trans (by norm_num) hab_lo))
  set q := roundF64 (a / b) with hq
  have hq_lo' : (1 : ℚ) / 2 ^ 65 ≤ q := by
    have : (1 : ℚ) / 2 ^ 65 ≤ 1 / 2 ^ 64 * (1 - 1 / 2 ^ 53) := by norm_num
    refine le_trans this (le_trans ?_ hq1)
    exact mul_le_mul_of_nonneg_right hab_lo (by norm_num)
  have hq0 : 0 < q := lt_of_lt_of_le (by norm_num) hq_lo'
  have hq100 : 0 < q * 100 := by positivity
  obtain ⟨hv1, hv2⟩ := roundF64_between hq100
    (tiny_le (le_trans (by norm_num) (by linarith : (1 : ℚ) / 2 ^ 65 ≤ q * 100)))
  have hv : progressPercent u size = roundF64 (q * 100) := rfl
  rw [hv, abs_le]
  -- collect the four factors
  have hQ_up : q ≤ r * ((1 + 1 / 2 ^ 53) / (1 - 1 / 2 ^ 53)) * (1 + 1 / 2 ^ 53) :=
    le_trans hq2 (mul_le_mul_of_nonneg_right hq_up (by norm_num))
  have hQ_lo : r * ((1 - 1 / 2 ^ 53) / (1 + 1 / 2 ^ 53)) * (1 - 1 / 2 ^ 53) ≤ q :=
    le_trans (mul_le_mul_of_nonneg_right hq_lo (by norm_num)) hq1
  have hV_up : roundF64 (q * 100) ≤
      r * ((1 + 1 / 2 ^ 53) / (1 - 1 / 2 ^ 53)) * (1 + 1 / 2 ^ 53) * 100 * (1 + 1 / 2 ^ 53) :=
    le_trans hv2 (mul_le_mul_of_nonneg_right
      (mul_le_mul_of_nonneg_right hQ_up (by norm_num)) (by norm_num))
  have hV_lo : r * ((1 - 1 / 2 ^ 53) / (1 + 1 / 2 ^ 53)) * (1 - 1 / 2 ^ 53) * 100 *
      (1 - 1 / 2 ^ 53) ≤ roundF64 (q * 100) :=
    le_trans (mul_le_mul_of_nonneg_right
      (mul_le_mul_of_nonneg_right hQ_lo (by norm_num)) (by norm_num)) hv1
  have hcU : ((1 : ℚ) + 1 / 2 ^ 53) / (1 - 1 / 2 ^ 53) * (1 + 1 / 2 ^ 53) * 100 *
      (1 + 1 / 2 ^ 53) ≤ 100 + 100 / 2 ^ 50 := by norm_num
  have hcL : (100 : ℚ) - 100 / 2 ^ 50 ≤ (1 - 1 / 2 ^ 53) / (1 + 1 / 2 ^ 53) *
      (1 - 1 / 2 ^ 53) * 100 * (1 - 1 / 2 ^ 53) := by norm_num
  constructor
  · have h1 : r * (100 - 100 / 2 ^ 50) ≤ roundF64 (q * 100) := by
      refine le_trans ?_ hV_lo
      have := mul_le_mul_of_nonneg_left hcL (le_of_lt hr0)
      calc r * (100 - 100 / 2 ^ 50)
          ≤ r * ((1 - 1 / 2 ^ 53) / (1 + 1 / 2 ^ 53) * (1 - 1 / 2 ^ 53) * 100 *
              (1 - 1 / 2 ^ 53)) := this
        _ = r * ((1 - 1 / 2 ^ 53) / (1 + 1 / 2 ^ 53)) * (1 - 1 / 2 ^ 53) * 100 *
              (1 - 1 / 2 ^ 53) := by ring
    have h2 : r * (100 / 2 ^ 50) ≤ 100 / 2 ^ 50 := by
      have := mul_le_mul_of_nonneg_right hr1 (by norm_num : (0 : ℚ) ≤ 100 / 2 ^ 50)
      linarith
    have h3 : r * (100 - 100 / 2 ^ 50) = r * 100 - r * (100 / 2 ^ 50) := by ring
    linarith
  · have h1 : roundF64 (q * 100) ≤ r * (100 + 100 / 2 ^ 50) := by
      refine le_trans hV_up ?_
      have := mul_le_mul_of_nonneg_left hcU (le_of_lt hr0)
      calc r * ((1 + 1 / 2 ^ 53) / (1 - 1 / 2 ^ 53)) * (1 + 1 / 2 ^ 53) * 100 *
              (1 + 1 / 2 ^ 53)
          = r * ((1 + 1 / 2 ^ 53) / (1 - 1 / 2 ^ 53) * (1 + 1 / 2 ^ 53) * 100 *
              (1 + 1 / 2 ^ 53)) := by ring
        _ ≤ r * (100 + 100 / 2 ^ 50) := this
    have h2 : r * (100 / 2 ^ 50) ≤ 100 / 2 ^ 50 := by
      have := mul_le_mul_of_nonneg_right hr1 (by norm_num : (0 : ℚ) ≤ 100 / 2 ^ 50)
      linarith
    have h3 : r * (100 + 100 / 2 ^ 50) = r * 100 + r * (100 / 2 ^ 50) := by ring
    linarith

theorem planOff_of_le {size cs T k : Int} (h : PlanOK size cs T) (hk : k ≤ T) :
    planOff size cs k = cs * (k - 1) := by
  unfold planOff
  have := h.cs_pos
  have := h.lower
  have : cs * (k - 1) ≤ cs * (T - 1) := by nlinarith
  omega

theorem planOff_succ_last {size cs T : Int} (h : PlanOK size cs T) :
    planOff size cs (T + 1) = size := by
  unfold planOff
  have := h.upper
  simp only [add_sub_cancel_right]
  omega

theorem planLen_pos {size cs T k : Int} (h : PlanOK size cs T) (hk1 : 1 ≤ k) (hk : k ≤ T) :
    0 < planLen size cs k ∧ planLen size cs k ≤ cs ∧
      planOff size cs k + planLen size cs k = planOff size cs (k + 1) ∧
      planOff size cs (k + 1) ≤ size ∧ 0 ≤ planOff size cs k := by
  have h1 := planOff_of_le h hk
  have hc := h.cs_pos
  have hl := h.lower
  have hu := h.upper
  have h0 : 0 ≤ cs * (k - 1) := by nlinarith
  unfold planLen
  rcases eq_or_lt_of_le hk with rfl | hlt
  · rw [planOff_succ_last h, h1]
    refine ⟨by omega, by nlinarith, by omega, le_refl _, by omega⟩
  · rw [planOff_of_le h (show k + 1 ≤ T by omega), h1]
    have : cs * (k + 1 - 1) = cs * (k - 1) + cs := by ring
    have : cs * (k + 1 - 1) ≤ cs * (T - 1) := by nlinarith
    refine ⟨by omega, by omega, by omega, by omega, by omega⟩

theorem chunkLen_eq {size cs T k : Int} (info : UploadInfo) (hcs : info.ChunkSize = cs)
    (h : PlanOK size cs T) (hk1 : 1 ≤ k) (hk : k ≤ T) :
    chunkLen size info T (planOff size cs k) k = planLen size cs k := by
  have hp := planLen_pos h hk1 hk
  have hsz := h.size_lt
  unfold chunkLen
  split
  · rename_i heq
    subst heq
    unfold planLen
    rw [planOff_succ_last h]
    apply wrapInt64_eq_self
    unfold isInt64
    have := planOff_succ_last h
    unfold planLen at hp
    omega
  · rename_i hne
    have hlt : k < T := by omega
    unfold planLen
    rw [planOff_of_le h (show k + 1 ≤ T by omega), planOff_of_le h hk, hcs]
    ring

theorem readFull_rest (s : List Byte) (n : Nat)
    (h : (readFull s n).2.2 ≠ some .unexpectedEOF) : (readFull s n).2.1 = s.drop n := by
  unfold readFull at h ⊢
  by_cases h1 : n ≤ s.length
  · simp only [h1, if_true]
  · by_cases h2 : s = []
    · subst h2
      rw [if_neg h1]
      simp
    · simp only [h1, h2, if_false] at h
      exact absurd rfl h

theorem readFull_length (s : List Byte) (n : Nat) : (readFull s n).1.length = n := by
  unfold readFull
  by_cases h1 : n ≤ s.length
  · simp only [h1, if_true, List.length_take]
    omega
  · by_cases h2 : s = []
    · subst h2
      rw [if_neg h1]
      simp
    · simp only [h1, h2, if_false, List.length_append, List.length_replicate]
      omega

theorem uploadChunk_eq (d : Teldrive) (w : World) (info : UploadInfo) (data : List Byte)
    (up : Bool) {size T k : Int} (st : LoopState)
    (h : PlanOK size info.ChunkSize T) (hk1 : 1 ≤ k) (hk : k ≤ T)
    (hinv : LoopInv data size info.ChunkSize k st) :
    uploadChunk d w size info up T k st =
      if (planRead data size info.ChunkSize k).2.2 = some .unexpectedEOF then
        (some .unexpectedEOF, st)
      else
        match w.upload k with
        | .failed e => (some (.transport e), issuedState d info data size T k st)
        | .response status body p =>
          if status ≠ 200 then (some (.chunkFailed k body), issuedState d info data size T k st)
          else (none, acceptedState d info data up size T k p st) := by
  obtain ⟨hu, hs⟩ := hinv
  have hp := planLen_pos h hk1 hk
  have hlen := chunkLen_eq info rfl h hk1 hk
  have hsz := h.size_lt
  unfold uploadChunk
  simp only [hu, hlen, hs]
  rw [if_neg (by omega)]
  have hrd : readFull (List.drop (planOff size info.ChunkSize k).toNat data)
      (planLen size info.ChunkSize k).toNat = planRead data size info.ChunkSize k := rfl
  rw [hrd]
  have hw : wrapInt64 (planOff size info.ChunkSize k + planLen size info.ChunkSize k) =
      planOff size info.ChunkSize (k + 1) := by
    rw [hp.2.2.1]
    apply wrapInt64_eq_self
    unfold isInt64
    have := hp.2.2.2
    omega
  rcases hr : planRead data size info.ChunkSize k with ⟨buf, rest, err⟩
  have hbuf : (planReq d info data size T k).body = buf := by
    simp [planReq, hr]
  rcases err with _ | _ | _
  · simp only [reduceCtorEq, if_false]
    cases hres : w.upload k with
    | failed e =>
      simp [issuedState, planReq, hr, hu]
    | response status body p =>
      by_cases h200 : status = 200
      · cases up <;> simp [acceptedState, planReq, hr, hu, h200, hw]
      · simp [issuedState, planReq, hr, hu, h200]
  · simp only [reduceCtorEq, if_false]
    cases hres : w.upload k with
    | failed e =>
      simp [issuedState, planReq, hr, hu]
    | response status body p =>
      by_cases h200 : status = 200
      · cases up <;> simp [acceptedState, planReq, hr, hu, h200, hw]
      · simp [issuedState, planReq, hr, hu, h200]
  · simp

theorem acceptedState_inv (d : Teldrive) (info : UploadInfo) (data : List Byte)
    (up : Bool) {size T k : Int} (p : PartFile) (st : LoopState)
    (h : PlanOK size info.ChunkSize T) (hk1 : 1 ≤ k) (hk : k ≤ T)
    (hrd : (planRead data size info.ChunkSize k).2.2 ≠ some .unexpectedEOF) :
    LoopInv data size info.ChunkSize (k + 1) (acceptedState d info data up size T k p st) := by
  have hp := planLen_pos h hk1 hk
  refine ⟨rfl, ?_⟩
  show (planRead data size info.ChunkSize k).2.1 = _
  unfold planRead at hrd ⊢
  rw [readFull_rest _ _ hrd, List.drop_drop]
  congr 1
  omega

theorem range_succ_flatMap {β : Type} (f : Nat → List β) (m : Nat) :
    (List.range (m + 1)).flatMap f = f 0 ++ (List.range m).flatMap (fun i => f (i + 1)) := by
  rw [List.range_succ_eq_map]
  simp [List.flatMap_cons, List.flatMap_map]

theorem range_one_flatMap {β : Type} (f : Nat → List β) : (List.range 1).flatMap f = f 0 := by
  simp [List.range_succ]

theorem range_succ_filterMap {β : Type} (f : Nat → Option β) (m : Nat) :
    (List.range (m + 1)).filterMap f =
      (f 0).toList ++ (List.range m).filterMap (fun i : Nat => f (i + 1)) := by
  rw [List.range_succ_eq_map]
  cases h : f 0 <;> simp [List.filterMap_cons, List.filterMap_map, h, Function.comp_def]

theorem uploadLoop_run (d : Teldrive) (w : World) (info : UploadInfo) (data : List Byte)
    (up : Bool) {size T : Int} (h : PlanOK size info.ChunkSize T) :
    ∀ (left : Nat) (k : Int) (st : LoopState), 1 ≤ k → k + left = T + 1 →
      LoopInv data size info.ChunkSize k st →
      LoopRun d w info data up size T k left st (uploadLoop d w size info up T left k st) := by
  intro left
  induction left with
  | zero =>
    intro k st _ _ _
    refine ⟨0, le_refl _, by simp [uploadLoop], by simp, by simp, Or.inl ?_⟩
    simp [uploadLoop]
  | succ left ih =>
    intro k st hk1 hkl hinv
    have hk : k ≤ T := by omega
    have hT := h.T_lt
    unfold uploadLoop
    rw [if_pos hk, uploadChunk_eq d w info data up st h hk1 hk hinv]
    by_cases hrd : (planRead data size info.ChunkSize k).2.2 = some .unexpectedEOF
    · rw [if_pos hrd]
      refine ⟨0, Nat.zero_le _, by simp, by simp, by simp, Or.inr (Or.inl ?_)⟩
      simp [hrd]
    · rw [if_neg hrd]
      cases hres : w.upload k with
      | failed e =>
        refine ⟨1, by omega, ?_, ?_, by simp, Or.inr (Or.inr (Or.inl ⟨0, e, rfl, by simpa using
            hres, rfl⟩))⟩
        · rw [range_one_flatMap]
          simp [issuedState, planEvents, okPart, hres]
        · intro i hi
          have : i = 0 := by omega
          subst this
          simpa using hrd
      | response status body p =>
        by_cases h200 : status = 200
        · simp only [h200, ne_eq, not_true_eq_false, if_false]
          have hw : wrapInt64 (k + 1) = k + 1 := by
            apply wrapInt64_eq_self
            unfold isInt64
            omega
          rw [hw]
          have hinv' := acceptedState_inv d info data up p st h hk1 hk hrd
          have hok : okPart w k = some p := by simp [okPart, hres, h200]
          obtain ⟨m, hm, htr, hreads, hoks, hcases⟩ :=
            ih (k + 1) (acceptedState d info data up size T k p st) (by omega) (by omega) hinv'
          have hidx : ∀ i : Nat, k + ((i + 1 : Nat) : Int) = k + 1 + (i : Int) := by
            intro i; push_cast; ring
          refine ⟨m + 1, by omega, ?_, ?_, ?_, ?_⟩
          · rw [htr, range_succ_flatMap]
            simp only [hidx]
            cases up <;> simp [acceptedState, planEvents, hok]
          · intro i hi
            cases i with
            | zero => simpa using hrd
            | succ i => rw [hidx]; exact hreads i (by omega)
          · intro i hi
            cases i with
            | zero => simp [hok]
            | succ i => rw [hidx]; exact hoks i (by omega)
          · have hall0 : ∀ (q : Nat → Prop), q 0 → (∀ i, i < m → q (i + 1)) →
                ∀ i, i < m + 1 → q i := by
              intro q h0 hs i hi
              cases i with
              | zero => exact h0
              | succ i => exact hs i (by omega)
            have hok0 : (okPart w (k + ((0 : Nat) : Int))).isSome = true := by simp [hok]
            rcases hcases with ⟨he, hml, hparts, hall⟩ | ⟨he, hml, hrdm, hall⟩ |
              ⟨j, e, hmj, hwj, he⟩ | ⟨j, s, body', p', hmj, hwj, hs, he⟩
            · refine Or.inl ⟨he, by omega, ?_, ?_⟩
              · rw [hparts, range_succ_filterMap]
                simp only [hidx]
                simp [acceptedState, hok]
              · intro i hi
                cases i with
                | zero => exact hok0
                | succ i => rw [hidx]; exact hall i (by omega)
            · refine Or.inr (Or.inl ⟨he, by omega, ?_, ?_⟩)
              · rw [hidx]; exact hrdm
              · intro i hi
                cases i with
                | zero => exact hok0
                | succ i => rw [hidx]; exact hall i (by omega)
            · refine Or.inr (Or.inr (Or.inl ⟨j + 1, e, by omega, ?_, he⟩))
              rw [hidx]; exact hwj
            · refine Or.inr (Or.inr (Or.inr ⟨j + 1, s, body', p', by omega, ?_, hs, ?_⟩))
              · rw [hidx]; exact hwj
              · rw [hidx]; exact he
        · simp only [h200, ne_eq, not_false_eq_true, if_true]
          refine ⟨1, by omega, ?_, ?_, by simp, Or.inr (Or.inr (Or.inr ⟨0, status, body, p, rfl, by
              simpa using hres, h200, by simp⟩))⟩
          · rw [range_one_flatMap]
            simp [issuedState, planEvents, okPart, hres, h200]
          · intro i hi
            have : i = 0 := by omega
            subst this
            simpa using hrd

theorem uploadsOf_append (a b : List Event) : uploadsOf (a ++ b) = uploadsOf a ++ uploadsOf b := by
  induction a with
  | nil => rfl
  | cons e es ih => cases e <;> simp [uploadsOf, ih]

theorem createsOf_append (a b : List Event) : createsOf (a ++ b) = createsOf a ++ createsOf b := by
  induction a with
  | nil => rfl
  | cons e es ih => cases e <;> simp [createsOf, ih]

theorem progressOf_append (a b : List Event) :
    progressOf (a ++ b) = progressOf a ++ progressOf b := by
  induction a with
  | nil => rfl
  | cons e es ih => cases e <;> simp [progressOf, ih]

theorem uploadsOf_planEvents (d : Teldrive) (w : World) (info : UploadInfo) (data : List Byte)
    (up : Bool) (size T k : Int) :
    uploadsOf (planEvents d w info data up size T k) = [planReq d info data size T k] := by
  unfold planEvents
  split <;> simp [uploadsOf]

theorem createsOf_planEvents (d : Teldrive) (w : World) (info : UploadInfo) (data : List Byte)
    (up : Bool) (size T k : Int) :
    createsOf (planEvents d w info data up size T k) = [] := by
  unfold planEvents
  split <;> simp [createsOf]

theorem progressOf_planEvents (d : Teldrive) (w : World) (info : UploadInfo) (data : List Byte)
    (up : Bool) (size T k : Int) :
    progressOf (planEvents d w info data up size T k) =
      if up = true ∧ (okPart w k).isSome then
        [progressPercent (planOff size info.ChunkSize (k + 1)) size] else [] := by
  unfold planEvents
  split <;> simp [progressOf]

theorem uploadsOf_run (d : Teldrive) (w : World) (info : UploadInfo) (data : List Byte)
    (up : Bool) (size T k : Int) (m : Nat) :
    uploadsOf ((List.range m).flatMap
        (fun i : Nat => planEvents d w info data up size T (k + (i : Int)))) =
      (List.range m).map (fun i : Nat => planReq d info data size T (k + (i : Int))) := by
  induction m with
  | zero => rfl
  | succ m ih =>
    rw [List.range_succ, List.flatMap_append, uploadsOf_append, ih]
    simp [uploadsOf_planEvents]

theorem createsOf_run (d : Teldrive) (w : World) (info : UploadInfo) (data : List Byte)
    (up : Bool) (size T k : Int) (m : Nat) :
    createsOf ((List.range m).flatMap
        (fun i : Nat => planEvents d w info data up size T (k + (i : Int)))) = [] := by
  induction m with
  | zero => rfl
  | succ m ih =>
    rw [List.range_succ, List.flatMap_append, createsOf_append, ih]
    simp [createsOf_planEvents]

theorem plan_ok {c size : Int} (hc1 : 1 ≤ c) (hc2 : c ≤ 2000) (hs0 : 0 < size)
    (hs1 : size < 2 ^ 63) :
    PlanOK size (c * 1024 * 1024)
      (if size % (c * 1024 * 1024) ≠ 0 then size / (c * 1024 * 1024) + 1
        else size / (c * 1024 * 1024)) := by
  have hcs : 0 < c * 1024 * 1024 := by omega
  have hcs2 : 1048576 ≤ c * 1024 * 1024 := by omega
  generalize c * 1024 * 1024 = cs at *
  have hdm := Int.emod_add_ediv size cs
  have hm0 := Int.emod_nonneg size (ne_of_gt hcs)
  have hm1 := Int.emod_lt_of_pos size hcs
  have hq0 : 0 ≤ size / cs := Int.ediv_nonneg (le_of_lt hs0) (le_of_lt hcs)
  have hq2 : size / cs * 1048576 ≤ size := by
    have := Int.ediv_mul_le size (ne_of_gt hcs)
    nlinarith
  split
  · rename_i hne
    have hpos : 0 < size % cs := by omega
    refine ⟨hcs, by omega, ?_, ?_, hs1, by omega⟩
    · have : cs * (size / cs + 1 - 1) = cs * (size / cs) := by ring
      omega
    · have : cs * (size / cs + 1) = cs * (size / cs) + cs := by ring
      omega
  · rename_i hne
    have h0 : size % cs = 0 := by simpa using hne
    have hq1 : 1 ≤ size / cs := by
      by_contra hcon
      have : size / cs = 0 := by omega
      rw [this] at hdm
      omega
    refine ⟨hcs, hq1, ?_, ?_, hs1, by omega⟩
    · have : cs * (size / cs - 1) = cs * (size / cs) - cs := by ring
      omega
    · omega

theorem planRead_full (data : List Byte) {size cs T k : Int} (h : PlanOK size cs T)
    (hk1 : 1 ≤ k) (hk : k ≤ T) (hfull : size ≤ data.length) :
    planRead data size cs k =
      ((data.drop (planOff size cs k).toNat).take (planLen size cs k).toNat,
        data.drop (planOff size cs (k + 1)).toNat, none) := by
  have hp := planLen_pos h hk1 hk
  unfold planRead readFull
  rw [if_pos (by rw [List.length_drop]; omega), List.drop_drop]
  congr 3
  omega

theorem uploadMultipart_eq (d : Teldrive) (w : World) (stream : FileStream) (info : UploadInfo)
    (up : Bool) :
    uploadMultipart d w stream info up =
      ((loopOf d w stream info up).1,
        (if (loopOf d w stream info up).1 = none then
          { info with
            FileChunks := (loopOf d w stream info up).2.partsToCommit.map
              fun part => ({ ID := part.PartId, Salt := part.Salt } : FilePart) }
        else info),
        (loopOf d w stream info up).2.trace) := by
  unfold uploadMultipart loopOf
  dsimp only
  split <;> rename_i e st heq <;> simp [heq]

theorem loopOf_run (d : Teldrive) (w : World) (stream : FileStream) (info : UploadInfo)
    (up : Bool) (h : PlanOK stream.size info.ChunkSize info.TotalChunks) :
    LoopRun d w info stream.data up stream.size info.TotalChunks 1 info.TotalChunks.toNat
      ⟨0, [], stream.data, []⟩ (loopOf d w stream info up) := by
  have hT := h.T_pos
  apply uploadLoop_run d w info stream.data up h
  · exact le_refl _
  · omega
  · have hs : 0 < stream.size := by
      have := h.lower
      have := h.cs_pos
      have : 0 ≤ info.ChunkSize * (info.TotalChunks - 1) := by nlinarith
      omega
    constructor
    · show (0 : Int) = planOff _ _ _
      unfold planOff
      simp
      omega
    · show stream.data = _
      unfold planOff
      simp
      have : min 0 stream.size = 0 := by omega
      simp [this]

theorem uploadsOf_loopOf (d : Teldrive) (w : World) (stream : FileStream) (info : UploadInfo)
    (up : Bool) (h : PlanOK stream.size info.ChunkSize info.TotalChunks) :
    ∃ m : Nat, m ≤ info.TotalChunks.toNat ∧
      uploadsOf (loopOf d w stream info up).2.trace =
        (List.range m).map (fun i : Nat =>
          planReq d info stream.data stream.size info.TotalChunks (1 + (i : Int))) ∧
      createsOf (loopOf d w stream info up).2.trace = [] := by
  obtain ⟨m, hm, htr, -, -, -⟩ := loopOf_run d w stream info up h
  refine ⟨m, hm, ?_, ?_⟩
  · rw [htr]
    simp [uploadsOf_append, uploadsOf_run, uploadsOf]
  · rw [htr]
    simp [createsOf_append, createsOf_run, createsOf]

theorem loopOf_success (d : Teldrive) (w : World) (stream : FileStream) (info : UploadInfo)
    (up : Bool) (h : PlanOK stream.size info.ChunkSize info.TotalChunks)
    (hreads : ∀ k : Int, 1 ≤ k → k ≤ info.TotalChunks →
      (planRead stream.data stream.size info.ChunkSize k).2.2 ≠ some .unexpectedEOF)
    (hoks : ∀ k : Int, 1 ≤ k → k ≤ info.TotalChunks → (okPart w k).isSome = true) :
    (loopOf d w stream info up).1 = none ∧
      (loopOf d w stream info up).2.trace =
        (List.range info.TotalChunks.toNat).flatMap (fun i : Nat =>
          planEvents d w info stream.data up stream.size info.TotalChunks (1 + (i : Int))) ∧
      (loopOf d w stream info up).2.partsToCommit =
        (List.range info.TotalChunks.toNat).filterMap (fun i : Nat => okPart w (1 + (i : Int))) :=
            by
  have hT := h.T_pos
  obtain ⟨m, hm, htr, -, -, hcases⟩ := loopOf_run d w stream info up h
  rcases hcases with ⟨he, hml, hparts, -⟩ | ⟨-, hml, hrdm, -⟩ | ⟨j, e, hmj, hwj, -⟩ |
    ⟨j, s, body, p, hmj, hwj, hs, -⟩
  · subst hml
    refine ⟨he, by simpa using htr, by simpa using hparts⟩
  · exact absurd hrdm (hreads _ (by omega) (by omega))
  · have := hoks (1 + (j : Int)) (by omega) (by omega)
    simp [okPart, hwj] at this
  · have := hoks (1 + (j : Int)) (by omega) (by omega)
    simp [okPart, hwj, hs] at this

theorem planReq_body_length (d : Teldrive) (info : UploadInfo) (data : List Byte)
    (size T k : Int) :
    (planReq d info data size T k).body.length = (planLen size info.ChunkSize k).toNat := by
  simp [planReq, planRead, readFull_length]

theorem planOf_planOK (w : World) (d : Teldrive) (dstDir : Obj) (stream : FileStream)
    (hc1 : 1 ≤ d.ChunkSize) (hc2 : d.ChunkSize ≤ 2000)
    (hs0 : 0 < stream.size) (hs1 : stream.size < 2 ^ 63) :
    PlanOK stream.size (planOf w d dstDir stream).ChunkSize
      (planOf w d dstDir stream).TotalChunks :=
  plan_ok hc1 hc2 hs0 hs1

theorem planOff_one {size cs T : Int} (h : PlanOK size cs T) : planOff size cs 1 = 0 := by
  rw [planOff_of_le h h.T_pos]
  ring

theorem planReq_body_full (d : Teldrive) (info : UploadInfo) (data : List Byte)
    {size T k : Int} (h : PlanOK size info.ChunkSize T)
    (hk1 : 1 ≤ k) (hk : k ≤ T) (hfull : size ≤ data.length) :
    (planReq d info data size T k).body =
      (data.take (planOff size info.ChunkSize (k + 1)).toNat).drop
        (planOff size info.ChunkSize k).toNat := by
  have hp := planLen_pos h hk1 hk
  simp only [planReq, planRead_full data h hk1 hk hfull]
  rw [List.drop_take]
  congr 1
  omega

theorem flatten_bodies (d : Teldrive) (info : UploadInfo) (data : List Byte)
    {size T : Int} (h : PlanOK size info.ChunkSize T) (hfull : size ≤ data.length) :
    ∀ m : Nat, (m : Int) ≤ T →
      ((List.range m).map (fun i : Nat =>
        (planReq d info data size T (1 + (i : Int))).body)).flatten =
        data.take (planOff size info.ChunkSize ((m : Int) + 1)).toNat := by
  intro m
  induction m with
  | zero =>
    intro _
    have h1 := planOff_one h
    simp [h1]
  | succ m ih =>
    intro hm
    have hk1 : (1 : Int) ≤ 1 + (m : Int) := by omega
    have hk : 1 + (m : Int) ≤ T := by push_cast at hm; omega
    have hp := planLen_pos h hk1 hk
    rw [List.range_succ, List.map_append, List.flatten_append, ih (by omega)]
    simp only [List.map_cons, List.map_nil, List.flatten_cons, List.flatten_nil,
      List.append_nil]
    rw [planReq_body_full d info data h hk1 hk hfull]
    have e1 : ((m : Int) + 1) = 1 + (m : Int) := by ring
    have e2 : (((m + 1 : Nat) : Int) + 1) = 1 + (m : Int) + 1 := by push_cast; ring
    rw [e1, e2]
    have hle : (planOff size info.ChunkSize (1 + (m : Int))).toNat ≤
        (planOff size info.ChunkSize (1 + (m : Int) + 1)).toNat := by omega
    generalize (planOff size info.ChunkSize (1 + (m : Int))).toNat = a at hle ⊢
    generalize (planOff size info.ChunkSize (1 + (m : Int) + 1)).toNat = b at hle ⊢
    conv_rhs => rw [← List.take_append_drop a (List.take b data)]
    rw [List.take_take, min_eq_left hle]

theorem filterMap_range_isSome {β : Type} (f : Nat → Option β) :
    ∀ m : Nat, (∀ i : Nat, i < m → (f i).isSome = true) →
      ((List.range m).filterMap f).length = m ∧
      ∀ i : Nat, i < m → ((List.range m).filterMap f)[i]? = f i := by
  intro m
  induction m with
  | zero => intro _; simp
  | succ m ih =>
    intro hall
    obtain ⟨hlen, hget⟩ := ih (fun i hi => hall i (by omega))
    have hm := hall m (by omega)
    obtain ⟨x, hx⟩ := Option.isSome_iff_exists.mp hm
    rw [List.range_succ, List.filterMap_append]
    simp only [List.filterMap_cons, List.filterMap_nil, hx]
    refine ⟨by simp [hlen], ?_⟩
    intro i hi
    by_cases him : i < m
    · rw [List.getElem?_append_left (by omega)]
      exact hget i him
    · have : i = m := by omega
      subst this
      rw [List.getElem?_append_right (by omega)]
      simp [hlen, hx]

theorem createFile_creates (w : World) (stream : FileStream) (info : UploadInfo)
    (tr : List Event) :
    createsOf (createFile w stream info tr).trace = createsOf tr ++ [commitReq w stream info] ∧
      uploadsOf (createFile w stream info tr).trace = uploadsOf tr ∧
      progressOf (createFile w stream info tr).trace = progressOf tr := by
  refine ⟨?_, ?_, ?_⟩
  all_goals
    unfold createFile
    try unfold commitReq
    dsimp only
    split
    · simp [createsOf_append, uploadsOf_append, progressOf_append, createsOf, uploadsOf,
        progressOf]
    · split
      · simp [createsOf_append, uploadsOf_append, progressOf_append, createsOf, uploadsOf,
          progressOf]
      · split <;>
        simp [createsOf_append, uploadsOf_append, progressOf_append, createsOf, uploadsOf,
          progressOf]

theorem Put_pos (d : Teldrive) (w : World) (dstDir : Obj) (stream : FileStream) (up : Bool)
    (hc1 : 1 ≤ d.ChunkSize) (hc2 : d.ChunkSize ≤ 2000)
    (hs0 : 0 < stream.size) (hs1 : stream.size < 2 ^ 63) :
    Put d w dstDir stream up =
      match (loopOf d w stream (planOf w d dstDir stream) up).1 with
      | some e => ⟨.error e, (loopOf d w stream (planOf w d dstDir stream) up).2.trace⟩
      | none =>
        createFile w stream
          { planOf w d dstDir stream with
            FileChunks := partsOf (loopOf d w stream (planOf w d dstDir stream) up).2 }
          (loopOf d w stream (planOf w d dstDir stream) up).2.trace := by
  unfold Put
  rw [if_neg (by omega), prepareUpload_ok w d dstDir stream hc1 hc2 (le_of_lt hs0) hs1]
  dsimp only
  rw [if_pos hs0, uploadMultipart_eq]
  cases h : (loopOf d w stream (planOf w d dstDir stream) up).1 <;> simp [partsOf]

theorem Put_zero (d : Teldrive) (w : World) (dstDir : Obj) (stream : FileStream) (up : Bool)
    (hc1 : 1 ≤ d.ChunkSize) (hc2 : d.ChunkSize ≤ 2000) (hs0 : stream.size = 0) :
    Put d w dstDir stream up = createFile w stream (planOf w d dstDir stream) [] := by
  unfold Put
  rw [if_neg (by omega),
    prepareUpload_ok w d dstDir stream hc1 hc2 (by omega) (by rw [hs0]; decide)]
  dsimp only
  rw [if_neg (by omega)]

theorem okPart_some {w : World} {k : Int} {p : PartFile} (h : okPart w k = some p) :
    ∃ body, w.upload k = .response 200 body p := by
  unfold okPart at h
  split at h
  · exact absurd h (by simp)
  · rename_i status body q heq
    by_cases h200 : status = 200
    · simp only [h200, if_true, Option.some.injEq] at h
      exact ⟨body, by rw [heq, h200, h]⟩
    · simp [h200] at h

theorem Put_error_of_loop (d : Teldrive) (w : World) (dstDir : Obj) (stream : FileStream)
    (up : Bool) (hc1 : 1 ≤ d.ChunkSize) (hc2 : d.ChunkSize ≤ 2000)
    (hs0 : 0 < stream.size) (hs1 : stream.size < 2 ^ 63) (e : Err)
    (he : (loopOf d w stream (planOf w d dstDir stream) up).1 = some e) :
    (Put d w dstDir stream up).result = .error e ∧
      (Put d w dstDir stream up).trace =
        (loopOf d w stream (planOf w d dstDir stream) up).2.trace := by
  rw [Put_pos d w dstDir stream up hc1 hc2 hs0 hs1, he]
  exact ⟨rfl, rfl⟩

theorem planRead_inside (data : List Byte) {size cs T : Int} (h : PlanOK size cs T)
    (hshort : (data.length : Int) < size) (hin : (data.length : Int) % cs ≠ 0) :
    1 ≤ (data.length : Int) / cs + 1 ∧ (data.length : Int) / cs + 1 ≤ T ∧
      (planRead data size cs ((data.length : Int) / cs + 1)).2.2 = some .unexpectedEOF := by
  have hcs := h.cs_pos
  have hup := h.upper
  have hdm := Int.emod_add_ediv (data.length : Int) cs
  have hm0 := Int.emod_nonneg (data.length : Int) (ne_of_gt hcs)
  have hm1 := Int.emod_lt_of_pos (data.length : Int) hcs
  have hq0 : 0 ≤ (data.length : Int) / cs := Int.ediv_nonneg (by omega) (le_of_lt hcs)
  have hjT : (data.length : Int) / cs + 1 ≤ T := by
    by_contra hcon
    have : cs * T ≤ cs * ((data.length : Int) / cs) := by nlinarith
    omega
  refine ⟨by omega, hjT, ?_⟩
  have hp := planLen_pos h (show 1 ≤ (data.length : Int) / cs + 1 by omega) hjT
  have hoff := planOff_of_le h hjT
  have hoff' : planOff size cs ((data.length : Int) / cs + 1) = cs * ((data.length : Int) / cs) :=
      by
    rw [hoff]; ring
  have hnext : (data.length : Int) < planOff size cs ((data.length : Int) / cs + 1 + 1) := by
    unfold planOff
    have : cs * ((data.length : Int) / cs + 1 + 1 - 1) = cs * ((data.length : Int) / cs) + cs := by
      ring
    rw [this]
    omega
  unfold planRead readFull
  have hlen : (List.drop (planOff size cs ((data.length : Int) / cs + 1)).toNat data).length =
      ((data.length : Int) % cs).toNat := by
    rw [List.length_drop, hoff']
    omega
  rw [if_neg (by rw [hlen]; omega), if_neg]
  intro hnil
  have := congrArg List.length hnil
  rw [hlen] at this
  simp at this
  omega

theorem uploadsOf_uploadMultipart_get (d : Teldrive) (w : World) (stream : FileStream)
    (info : UploadInfo) (up : Bool) (h : PlanOK stream.size info.ChunkSize info.TotalChunks)
    (i : Nat) (r : UploadReq)
    (hr : (uploadsOf (uploadMultipart d w stream info up).2.2)[i]? = some r) :
    (i : Int) + 1 ≤ info.TotalChunks ∧
      r = planReq d info stream.data stream.size info.TotalChunks ((i : Int) + 1) := by
  rw [uploadMultipart_eq] at hr
  obtain ⟨m, hm, hup', -⟩ := uploadsOf_loopOf d w stream info up h
  simp only [hup'] at hr
  rw [List.getElem?_map] at hr
  have him : i < m := by
    by_contra hcon
    rw [List.getElem?_eq_none (by simpa using hcon)] at hr
    simp at hr
  rw [List.getElem?_range him] at hr
  simp only [Option.map_some', Option.some.injEq] at hr
  have hT := h.T_pos
  refine ⟨by omega, ?_⟩
  rw [← hr, add_comm]

theorem loopOf_trace_success (d : Teldrive) (w : World) (stream : FileStream)
    (info : UploadInfo) (h : PlanOK stream.size info.ChunkSize info.TotalChunks)
    (he : (loopOf d w stream info true).1 = none) :
    (loopOf d w stream info true).2.trace =
      (List.range info.TotalChunks.toNat).flatMap (fun i : Nat =>
        [Event.uploadChunk
            (planReq d info stream.data stream.size info.TotalChunks (1 + (i : Int))),
          Event.progress
            (progressPercent (planOff stream.size info.ChunkSize (1 + (i : Int) + 1))
              stream.size)]) := by
  obtain ⟨m, hm, htr, -, -, hcases⟩ := loopOf_run d w stream info true h
  rcases hcases with ⟨-, hml, -, hall⟩ | ⟨he', -⟩ | ⟨j, e, -, -, he'⟩ |
    ⟨j, s, body, p, -, -, -, he'⟩
  · subst hml
    rw [htr, List.flatMap_def, List.flatMap_def]
    simp only [List.nil_append]
    congr 1
    apply List.map_congr_left
    intro i hi
    have := hall i (List.mem_range.mp hi)
    simp [planEvents, this]
  · rw [he] at he'; exact absurd he' (by simp)
  · rw [he] at he'; exact absurd he' (by simp)
  · rw [he] at he'; exact absurd he' (by simp)

theorem uploadsOf_pairs (R : Nat → UploadReq) (V : Nat → F64) (m : Nat) :
    uploadsOf ((List.range m).flatMap (fun i : Nat =>
      [Event.uploadChunk (R i), Event.progress (V i)])) = (List.range m).map R := by
  induction m with
  | zero => rfl
  | succ m ih =>
    rw [List.range_succ, List.flatMap_append, uploadsOf_append, ih]
    simp [uploadsOf]

theorem progressOf_pairs (R : Nat → UploadReq) (V : Nat → F64) (m : Nat) :
    progressOf ((List.range m).flatMap (fun i : Nat =>
      [Event.uploadChunk (R i), Event.progress (V i)])) = (List.range m).map V := by
  induction m with
  | zero => rfl
  | succ m ih =>
    rw [List.range_succ, List.flatMap_append, progressOf_append, ih]
    simp [progressOf]

theorem sum_planLen {size cs T : Int} (h : PlanOK size cs T) :
    ∀ n : Nat, (n : Int) ≤ T →
      ((List.range n).map (fun j : Nat => (planLen size cs (1 + (j : Int))).toNat)).sum =
        (planOff size cs (1 + (n : Int))).toNat := by
  intro n
  induction n with
  | zero =>
    intro _
    have := planOff_one h
    simp [this]
  | succ n ih =>
    intro hn
    have hk1 : (1 : Int) ≤ 1 + (n : Int) := by omega
    have hk : 1 + (n : Int) ≤ T := by push_cast at hn; omega
    have hp := planLen_pos h hk1 hk
    rw [List.range_succ, List.map_append, List.sum_append, ih (by omega)]
    simp only [List.map_cons, List.map_nil, List.sum_cons, List.sum_nil, add_zero]
    have e : (1 + ((n + 1 : Nat) : Int)) = 1 + (n : Int) + 1 := by push_cast; ring
    rw [e]
    omega

theorem planOff_mono {size cs k k' : Int} (hcs : 0 < cs) (h : k ≤ k') :
    planOff size cs k ≤ planOff size cs k' := by
  unfold planOff
  have : cs * (k - 1) ≤ cs * (k' - 1) := by nlinarith
  omega

theorem planOff_nonneg {size cs k : Int} (hcs : 0 < cs) (hs : 0 ≤ size) (hk : 1 ≤ k) :
    0 ≤ planOff size cs k := by
  unfold planOff
  have : 0 ≤ cs * (k - 1) := by nlinarith
  omega

theorem uploadMultipart_full_success (d : Teldrive) (w : World) (stream : FileStream)
    (info : UploadInfo) (up : Bool)
    (hP : PlanOK stream.size info.ChunkSize info.TotalChunks)
    (hfull : stream.size ≤ stream.data.length)
    (hall : ∀ k : Int, 1 ≤ k → k ≤ info.TotalChunks →
      ∃ body p, w.upload k = .response 200 body p) :
    (uploadMultipart d w stream info up).1 = none ∧
      uploadsOf (uploadMultipart d w stream info up).2.2 =
        (List.range info.TotalChunks.toNat).map (fun i : Nat =>
          planReq d info stream.data stream.size info.TotalChunks (1 + (i : Int))) := by
  have hsucc := loopOf_success d w stream info up hP
    (fun k hk1 hk => by rw [planRead_full stream.data hP hk1 hk hfull]; simp)
    (fun k hk1 hk => by
      obtain ⟨body, p, hw⟩ := hall k hk1 hk
      simp [okPart, hw])
  rw [uploadMultipart_eq]
  refine ⟨hsucc.1, ?_⟩
  simp only [hsucc.2.1, uploadsOf_run]

theorem uploadMultipart_first_request (d : Teldrive) (w : World) (stream : FileStream)
    (info : UploadInfo) (up : Bool)
    (hP : PlanOK stream.size info.ChunkSize info.TotalChunks)
    (hfull : stream.size ≤ stream.data.length) :
    ∃ r, (uploadsOf (uploadMultipart d w stream info up).2.2)[0]? = some r := by
  have hTp := hP.T_pos
  obtain ⟨m, hm, htr, -, -, hcases⟩ := loopOf_run d w stream info up hP
  have hupl : uploadsOf (uploadMultipart d w stream info up).2.2 =
      (List.range m).map (fun i : Nat =>
        planReq d info stream.data stream.size info.TotalChunks (1 + (i : Int))) := by
    rw [uploadMultipart_eq]
    simp only [htr, uploadsOf_append, uploadsOf_run, uploadsOf, List.nil_append]
  have hm1 : 0 < m := by
    rcases hcases with ⟨-, hml, -, -⟩ | ⟨-, hml, hrdm, -⟩ | ⟨j, e, hmj, -, -⟩ |
      ⟨j, s, body, p, hmj, -, -, -⟩
    · omega
    · by_contra hcon
      have hm0 : m = 0 := by omega
      subst hm0
      rw [planRead_full stream.data hP (by simp) (by simpa using hTp) hfull] at hrdm
      simp at hrdm
    · omega
    · omega
  rw [hupl, List.getElem?_map, List.getElem?_range hm1]
  exact ⟨_, rfl⟩

theorem sampleWorld_accepts (k : Int) :
    ∃ body p, sampleWorld.upload k = .response 200 body p := ⟨_, _, rfl⟩

theorem threeChunk_planOK :
    PlanOK threeChunkStream.size
      (planOf sampleWorld sampleDriver sampleDir threeChunkStream).ChunkSize
      (planOf sampleWorld sampleDriver sampleDir threeChunkStream).TotalChunks :=
  planOf_planOK sampleWorld sampleDriver sampleDir threeChunkStream (by decide) (by decide)
    (by decide) (by decide)

theorem threeChunk_full : threeChunkStream.size ≤ threeChunkStream.data.length := by
  simp only [threeChunkStream, List.length_replicate]
  decide

theorem threeChunk_total :
    (planOf sampleWorld sampleDriver sampleDir threeChunkStream).TotalChunks = 3 := by
  decide

theorem threeChunk_uploads (up : Bool) :
    uploadsOf (uploadMultipart sampleDriver sampleWorld threeChunkStream
      (planOf sampleWorld sampleDriver sampleDir threeChunkStream) up).2.2 =
      (List.range 3).map (fun i : Nat =>
        planReq sampleDriver (planOf sampleWorld sampleDriver sampleDir threeChunkStream)
          threeChunkStream.data threeChunkStream.size
          (planOf sampleWorld sampleDriver sampleDir threeChunkStream).TotalChunks
          (1 + (i : Int))) := by
  have h := (uploadMultipart_full_success sampleDriver sampleWorld threeChunkStream
    (planOf sampleWorld sampleDriver sampleDir threeChunkStream) up threeChunk_planOK
    threeChunk_full (fun k _ _ => sampleWorld_accepts k)).2
  rw [h, threeChunk_total]
  rfl

theorem threeChunk_first_length (up : Bool) :
    (((uploadsOf (uploadMultipart sampleDriver sampleWorld threeChunkStream
      (planOf sampleWorld sampleDriver sampleDir threeChunkStream) up).2.2).take 1).map
      (fun r => r.body.length)).sum = 1048576 := by
  rw [threeChunk_uploads]
  simp only [List.range_succ, List.range_zero, List.nil_append, List.map_cons, List.map_nil,
    List.cons_append, List.take_succ_cons, List.take_zero, List.sum_cons, List.sum_nil,
    planReq_body_length]
  decide

/-! ## Properties of the upload engine -/

/-- C1. For a declared size >= 0 and a configured chunk size of c MiB with
1 <= c <= 2000, `prepareUpload` returns a plan with ChunkSize = c*1024*1024 and
TotalChunks = ceil(size / ChunkSize), and TotalChunks is 0 exactly when size
is 0. -/
theorem prepareUpload_chunk_plan (w : World) (d : Teldrive) (dstDir : Obj)
    (stream : FileStream) (hc1 : 1 ≤ d.ChunkSize) (hc2 : d.ChunkSize ≤ 2000)
    (hs0 : 0 ≤ stream.size) (hs1 : stream.size < 2 ^ 63) :
    ∃ info, prepareUpload w d dstDir stream = .ok info ∧
      info.ChunkSize = d.ChunkSize * 1024 * 1024 ∧
      info.TotalChunks = ⌈(stream.size : ℚ) / (info.ChunkSize : ℚ)⌉ ∧
      (info.TotalChunks = 0 ↔ stream.size = 0) := by
  refine ⟨planOf w d dstDir stream, prepareUpload_ok w d dstDir stream hc1 hc2 hs0 hs1,
    rfl, ?_, ?_⟩
  · exact ceil_div_eq (by show 0 < d.ChunkSize * 1024 * 1024; omega)
  · constructor
    · intro hT
      by_contra hne
      have hpos : 0 < stream.size := by omega
      have := (planOf_planOK w d dstDir stream hc1 hc2 hpos hs1).T_pos
      omega
    · intro hz
      simp [planOf, hz]

/-- The theorem above at sample inputs, its hypotheses discharged. -/
theorem prepareUpload_chunk_plan_witness :
    (1 ≤ sampleDriver.ChunkSize ∧ sampleDriver.ChunkSize ≤ 2000 ∧ 0 ≤ sampleStream.size ∧
      sampleStream.size < 2 ^ 63) ∧
    ∃ info, prepareUpload sampleWorld sampleDriver sampleDir sampleStream = .ok info ∧
      info.ChunkSize = sampleDriver.ChunkSize * 1024 * 1024 ∧
      info.TotalChunks = ⌈(sampleStream.size : ℚ) / (info.ChunkSize : ℚ)⌉ ∧
      (info.TotalChunks = 0 ↔ sampleStream.size = 0) :=
  ⟨by decide, prepareUpload_chunk_plan sampleWorld sampleDriver sampleDir sampleStream
    (by decide) (by decide) (by decide) (by decide)⟩

/-- C2. Under the plan of `prepareUpload` for a stream of size > 0, the last
chunk length `size - ChunkSize*(TotalChunks-1)` is > 0 and <= ChunkSize; the
i-th part-upload request of `uploadMultipart` (0-based) is the one for chunk
number i+1, and its body has ChunkSize bytes when i+1 < TotalChunks and
`size - ChunkSize*(TotalChunks-1)` bytes when i+1 = TotalChunks. For size
25165824 and a 10 MiB chunk size, a stream holding the declared bytes whose
uploads all return 200 is sent in bodies of 10 MiB, 10 MiB and 4 MiB. -/
theorem uploadMultipart_chunk_lengths (d : Teldrive) (w : World) (dstDir : Obj)
    (stream : FileStream) (up : Bool)
    (hc1 : 1 ≤ d.ChunkSize) (hc2 : d.ChunkSize ≤ 2000)
    (hs0 : 0 < stream.size) (hs1 : stream.size < 2 ^ 63) :
    ∃ info, prepareUpload w d dstDir stream = .ok info ∧
      0 < stream.size - info.ChunkSize * (info.TotalChunks - 1) ∧
      stream.size - info.ChunkSize * (info.TotalChunks - 1) ≤ info.ChunkSize ∧
      (∀ (i : Nat) (r : UploadReq),
        (uploadsOf (uploadMultipart d w stream info up).2.2)[i]? = some r →
          r.partNo = fmtD ((i : Int) + 1) ∧ (i : Int) + 1 ≤ info.TotalChunks ∧
          ((i : Int) + 1 < info.TotalChunks → (r.body.length : Int) = info.ChunkSize) ∧
          ((i : Int) + 1 = info.TotalChunks →
            (r.body.length : Int) =
              stream.size - info.ChunkSize * (info.TotalChunks - 1))) ∧
      (stream.size = 25165824 → d.ChunkSize = 10 → stream.size ≤ stream.data.length →
        (∀ k : Int, ∃ body p, w.upload k = .response 200 body p) →
        (uploadsOf (uploadMultipart d w stream info up).2.2).map (fun r => r.body.length) =
          [10485760, 10485760, 4194304]) := by
  have hplan := plan_ok hc1 hc2 hs0 hs1
  refine ⟨planOf w d dstDir stream,
    prepareUpload_ok w d dstDir stream hc1 hc2 (le_of_lt hs0) hs1, ?_⟩
  generalize hinfo : planOf w d dstDir stream = info
  have hcs : info.ChunkSize = d.ChunkSize * 1024 * 1024 := by rw [← hinfo]; rfl
  have hTd : info.TotalChunks =
      (if stream.size % (d.ChunkSize * 1024 * 1024) ≠ 0 then
        stream.size / (d.ChunkSize * 1024 * 1024) + 1
      else stream.size / (d.ChunkSize * 1024 * 1024)) := by rw [← hinfo]; rfl
  have hP : PlanOK stream.size info.ChunkSize info.TotalChunks := by
    rw [hcs, hTd]; exact hplan
  have hlo := hP.lower
  have hup := hP.upper
  have hcp := hP.cs_pos
  have hTp := hP.T_pos
  refine ⟨by omega, ?_, ?_, ?_⟩
  · have : info.ChunkSize * info.TotalChunks =
        info.ChunkSize * (info.TotalChunks - 1) + info.ChunkSize := by ring
    omega
  · intro i r hr
    rw [uploadMultipart_eq] at hr
    obtain ⟨m, hm, hup', -⟩ := uploadsOf_loopOf d w stream info up hP
    simp only [hup'] at hr
    rw [List.getElem?_map] at hr
    have him : i < m := by
      by_contra hcon
      rw [List.getElem?_eq_none (by simpa using hcon)] at hr
      simp at hr
    rw [List.getElem?_range him] at hr
    simp only [Option.map_some', Option.some.injEq] at hr
    subst hr
    have hk1 : (1 : Int) ≤ 1 + (i : Int) := by omega
    have hk : 1 + (i : Int) ≤ info.TotalChunks := by omega
    have hp := planLen_pos hP hk1 hk
    refine ⟨by simp [planReq, add_comm], by omega, ?_, ?_⟩
    · intro hlt
      rw [planReq_body_length, Int.toNat_of_nonneg (le_of_lt hp.1)]
      unfold planLen
      rw [planOff_of_le hP hk, planOff_of_le hP (show 1 + (i : Int) + 1 ≤ info.TotalChunks by
          omega)]
      ring
    · intro heq
      rw [planReq_body_length, Int.toNat_of_nonneg (le_of_lt hp.1)]
      unfold planLen
      have h1 : 1 + (i : Int) = info.TotalChunks := by omega
      rw [h1, planOff_succ_last hP, planOff_of_le hP (le_refl _)]
  · intro hsz hc hfull hall
    rw [uploadMultipart_eq]
    have hsucc := loopOf_success d w stream info up hP
      (fun k hk1 hk => by rw [planRead_full stream.data hP hk1 hk hfull]; simp)
      (fun k _ _ => by
        obtain ⟨body, p, hw⟩ := hall k
        simp [okPart, hw])
    simp only [hsucc.2.1, uploadsOf_run, List.map_map]
    have hT : info.TotalChunks = 3 := by
      rw [hTd, hsz, hc]
      decide
    have hC : info.ChunkSize = 10485760 := by
      rw [hcs, hc]; rfl
    rw [hT]
    simp only [Function.comp_def, planReq_body_length, hC, hsz]
    decide

/-- The theorem above at sample inputs, its hypotheses discharged. -/
theorem uploadMultipart_chunk_lengths_witness :
    ((1 ≤ sampleDriver.ChunkSize) ∧
      (sampleDriver.ChunkSize ≤ 2000) ∧
      (0 < sampleStream.size) ∧
      (sampleStream.size < 2 ^ 63)) ∧
    (∃ info, prepareUpload sampleWorld sampleDriver sampleDir sampleStream = .ok info ∧
      0 < sampleStream.size - info.ChunkSize * (info.TotalChunks - 1) ∧
      sampleStream.size - info.ChunkSize * (info.TotalChunks - 1) ≤ info.ChunkSize ∧
      (∀ (i : Nat) (r : UploadReq),
        (uploadsOf (uploadMultipart sampleDriver sampleWorld sampleStream info true).2.2)[i]? = some
            r →
          r.partNo = fmtD ((i : Int) + 1) ∧ (i : Int) + 1 ≤ info.TotalChunks ∧
          ((i : Int) + 1 < info.TotalChunks → (r.body.length : Int) = info.ChunkSize) ∧
          ((i : Int) + 1 = info.TotalChunks →
            (r.body.length : Int) =
              sampleStream.size - info.ChunkSize * (info.TotalChunks - 1))) ∧
      (sampleStream.size = 25165824 → sampleDriver.ChunkSize = 10 → sampleStream.size ≤
          sampleStream.data.length →
        (∀ k : Int, ∃ body p, sampleWorld.upload k = .response 200 body p) →
        (uploadsOf (uploadMultipart sampleDriver sampleWorld sampleStream info true).2.2).map (fun r
            => r.body.length) =
          [10485760, 10485760, 4194304])) :=
  ⟨by decide,
    uploadMultipart_chunk_lengths sampleDriver sampleWorld sampleDir sampleStream true
      (by decide) (by decide) (by decide) (by decide)⟩

/-- C3 (amended). A `Put` with declared size > 0 whose stream ends strictly inside
a chunk (it holds fewer than `size` bytes, and not a whole number of chunks)
returns an error and issues no create-file request. -/
theorem Put_truncated_inside_chunk (d : Teldrive) (w : World) (dstDir : Obj)
    (stream : FileStream) (up : Bool)
    (hc1 : 1 ≤ d.ChunkSize) (hc2 : d.ChunkSize ≤ 2000)
    (hs0 : 0 < stream.size) (hs1 : stream.size < 2 ^ 63)
    (hshort : (stream.data.length : Int) < stream.size)
    (hin : (stream.data.length : Int) % (d.ChunkSize * 1024 * 1024) ≠ 0) :
    (∃ e, (Put d w dstDir stream up).result = .error e) ∧
      createsOf (Put d w dstDir stream up).trace = [] := by
  have hP := planOf_planOK w d dstDir stream hc1 hc2 hs0 hs1
  obtain ⟨hj1, hjT, hrd⟩ := planRead_inside stream.data hP hshort hin
  obtain ⟨m, hm, htr, hreads, -, hcases⟩ :=
    loopOf_run d w stream (planOf w d dstDir stream) up hP
  have hcre : createsOf (loopOf d w stream (planOf w d dstDir stream) up).2.trace = [] := by
    simp only [htr, createsOf_append, createsOf_run, createsOf, List.nil_append]
  cases herr : (loopOf d w stream (planOf w d dstDir stream) up).1 with
  | some e =>
    obtain ⟨hres, htrace⟩ := Put_error_of_loop d w dstDir stream up hc1 hc2 hs0 hs1 e herr
    exact ⟨⟨e, hres⟩, by rw [htrace, hcre]⟩
  | none =>
    exfalso
    rcases hcases with ⟨-, hml, -, -⟩ | ⟨he, -⟩ | ⟨j, e, -, -, he⟩ | ⟨j, s, body, p, -, -, -, he⟩
    · have hq0 : 0 ≤ (stream.data.length : Int) / (planOf w d dstDir stream).ChunkSize :=
        Int.ediv_nonneg (by omega) (le_of_lt hP.cs_pos)
      have := hreads ((stream.data.length : Int) / (planOf w d dstDir stream).ChunkSize).toNat
        (by omega)
      rw [Int.toNat_of_nonneg hq0, add_comm] at this
      exact this hrd
    · rw [herr] at he; exact absurd he (by simp)
    · rw [herr] at he; exact absurd he (by simp)
    · rw [herr] at he; exact absurd he (by simp)

/-- C3, counterexample. A stream that declares five bytes and is empty: `Put`
sends one chunk of five zero bytes, issues the create-file request and returns
the created object. -/
theorem Put_truncated_counterexample :
    0 < emptyStream.size ∧ (emptyStream.data.length : Int) < emptyStream.size ∧
      (Put sampleDriver sampleWorld sampleDir emptyStream false).result =
        .ok { ID := "file", Name := "a.bin", Size := 5, Modified := 0, IsFolder := false } ∧
      (uploadsOf (Put sampleDriver sampleWorld sampleDir emptyStream false).trace).map
        (fun r => r.body) = [[0, 0, 0, 0, 0]] ∧
      (createsOf (Put sampleDriver sampleWorld sampleDir emptyStream false).trace).length = 1 := by
  decide

/-- The theorem above at sample inputs, its hypotheses discharged. -/
theorem Put_truncated_inside_chunk_witness :
    (1 ≤ sampleDriver.ChunkSize ∧ sampleDriver.ChunkSize ≤ 2000 ∧ 0 < shortStream.size ∧
      shortStream.size < 2 ^ 63 ∧ (shortStream.data.length : Int) < shortStream.size ∧
      (shortStream.data.length : Int) % (sampleDriver.ChunkSize * 1024 * 1024) ≠ 0) ∧
    (∃ e, (Put sampleDriver sampleWorld sampleDir shortStream true).result = .error e) ∧
      createsOf (Put sampleDriver sampleWorld sampleDir shortStream true).trace = [] :=
  ⟨by decide, Put_truncated_inside_chunk sampleDriver sampleWorld sampleDir shortStream true
    (by decide) (by decide) (by decide) (by decide) (by decide) (by decide)⟩

/-- C4. In a `Put` that issues the part-upload request of chunk k and gets for it
a status other than 200, chunks 1..k-1 were answered with status 200, `Put`
returns the error "failed to upload chunk k: ...", the part-upload requests issued
are exactly those of chunks 1..k in that order, and no create-file request
is issued. -/
theorem Put_chunk_failure (d : Teldrive) (w : World) (dstDir : Obj) (stream : FileStream)
    (up : Bool) (k s : Int) (body : String) (p : PartFile)
    (hc1 : 1 ≤ d.ChunkSize) (hc2 : d.ChunkSize ≤ 2000)
    (hs0 : 0 ≤ stream.size) (hs1 : stream.size < 2 ^ 63)
    (hfail : w.upload k = .response s body p) (hs : s ≠ 200)
    (hissued : ∃ r ∈ uploadsOf (Put d w dstDir stream up).trace, r.partNo = fmtD k) :
    (Put d w dstDir stream up).result = .error (.chunkFailed k body) ∧
      (Err.chunkFailed k body).message = "failed to upload chunk " ++ fmtD k ++ ": " ++ body ∧
      (uploadsOf (Put d w dstDir stream up).trace).map (fun r => r.partNo) =
        (List.range k.toNat).map (fun i : Nat => fmtD ((i : Int) + 1)) ∧
      createsOf (Put d w dstDir stream up).trace = [] ∧
      1 ≤ k ∧
      (∃ info, prepareUpload w d dstDir stream = .ok info ∧ k ≤ info.TotalChunks) ∧
      (∀ j : Int, 1 ≤ j → j < k → ∃ b q, w.upload j = .response 200 b q) := by
  rcases eq_or_lt_of_le hs0 with hz | hpos
  · exfalso
    obtain ⟨r, hr, -⟩ := hissued
    rw [Put_zero d w dstDir stream up hc1 hc2 hz.symm,
      (createFile_creates w stream (planOf w d dstDir stream) []).2.1] at hr
    simp [uploadsOf] at hr
  have hP := planOf_planOK w d dstDir stream hc1 hc2 hpos hs1
  have hTp := hP.T_pos
  have hnot : okPart w k = none := by simp [okPart, hfail, hs]
  obtain ⟨m, hm, htr, -, hoks, hcases⟩ :=
    loopOf_run d w stream (planOf w d dstDir stream) up hP
  have hupl : uploadsOf (loopOf d w stream (planOf w d dstDir stream) up).2.trace =
      (List.range m).map (fun i : Nat =>
        planReq d (planOf w d dstDir stream) stream.data stream.size
          (planOf w d dstDir stream).TotalChunks (1 + (i : Int))) := by
    simp only [htr, uploadsOf_append, uploadsOf_run, uploadsOf, List.nil_append]
  have hcre : createsOf (loopOf d w stream (planOf w d dstDir stream) up).2.trace = [] := by
    simp only [htr, createsOf_append, createsOf_run, createsOf, List.nil_append]
  have hput := Put_pos d w dstDir stream up hc1 hc2 hpos hs1
  have hin : ∃ i : Nat, i < m ∧ k = 1 + (i : Int) := by
    obtain ⟨r, hr, hrk⟩ := hissued
    have hu : uploadsOf (Put d w dstDir stream up).trace =
        uploadsOf (loopOf d w stream (planOf w d dstDir stream) up).2.trace := by
      rw [hput]
      cases (loopOf d w stream (planOf w d dstDir stream) up).1 with
      | some e => rfl
      | none => exact (createFile_creates w stream _ _).2.1
    rw [hu, hupl] at hr
    obtain ⟨i, hi, hri⟩ := List.mem_map.mp hr
    refine ⟨i, List.mem_range.mp hi, ?_⟩
    rw [← hri] at hrk
    have hrk' : fmtD (1 + (i : Int)) = fmtD k := hrk
    exact (fmtD_injective hrk').symm
  obtain ⟨i, him, hki⟩ := hin
  have hcontra : ∀ i' : Nat, (okPart w (1 + (i' : Int))).isSome = true → i' ≠ i := by
    intro i' hok heq
    rw [heq, ← hki, hnot] at hok
    simp at hok
  rcases hcases with ⟨-, -, -, hall⟩ | ⟨-, -, -, hall⟩ | ⟨j, e, hmj, hwj, -⟩ |
    ⟨j, s', body', p', hmj, hwj, hs', he⟩
  · exact absurd rfl (hcontra i (hall i him))
  · exact absurd rfl (hcontra i (hall i him))
  · have hij : i = j := by
      by_contra hne
      exact hcontra i (hoks i (by omega)) rfl
    subst hij
    rw [← hki, hfail] at hwj
    exact absurd hwj (by simp)
  · have hij : i = j := by
      by_contra hne
      exact hcontra i (hoks i (by omega)) rfl
    subst hij
    rw [← hki, hfail] at hwj
    simp only [HttpResult.response.injEq] at hwj
    obtain ⟨-, hb, -⟩ := hwj
    rw [← hki, ← hb] at he
    obtain ⟨hres, htrace⟩ := Put_error_of_loop d w dstDir stream up hc1 hc2 hpos hs1 _ he
    refine ⟨hres, rfl, ?_, by rw [htrace, hcre], by omega, ?_, ?_⟩
    · rw [htrace, hupl, hmj, hki]
      have : (1 + (i : Int)).toNat = i + 1 := by omega
      rw [this]
      simp [planReq, Function.comp_def, add_comm]
    · exact ⟨_, prepareUpload_ok w d dstDir stream hc1 hc2 hs0 hs1, by omega⟩
    · intro j hj1 hjk
      have hj : j = 1 + ((j - 1).toNat : Int) := by omega
      have hok := hoks (j - 1).toNat (by omega)
      rw [← hj] at hok
      obtain ⟨q, hq⟩ := Option.isSome_iff_exists.mp hok
      obtain ⟨b, hb'⟩ := okPart_some hq
      exact ⟨b, q, hb'⟩

/-- The theorem above at sample inputs, its hypotheses discharged. -/
theorem Put_chunk_failure_witness :
    ((1 ≤ sampleDriver.ChunkSize) ∧
      (sampleDriver.ChunkSize ≤ 2000) ∧
      (0 ≤ sampleStream.size) ∧
      (sampleStream.size < 2 ^ 63) ∧
      (rejectingWorld.upload (1 : Int) = .response (500 : Int) "server error" emptyPart) ∧
      ((500 : Int) ≠ 200) ∧
      (∃ r ∈ uploadsOf (Put sampleDriver rejectingWorld sampleDir sampleStream true).trace, r.partNo
          = fmtD (1 : Int))) ∧
    ((Put sampleDriver rejectingWorld sampleDir sampleStream true).result = .error (.chunkFailed (1
        : Int) "server error") ∧
      (Err.chunkFailed (1 : Int) "server error").message = "failed to upload chunk " ++ fmtD (1 :
          Int) ++ ": " ++ "server error" ∧
      (uploadsOf (Put sampleDriver rejectingWorld sampleDir sampleStream true).trace).map (fun r =>
          r.partNo) =
        (List.range (1 : Int).toNat).map (fun i : Nat => fmtD ((i : Int) + 1)) ∧
      createsOf (Put sampleDriver rejectingWorld sampleDir sampleStream true).trace = [] ∧
      1 ≤ (1 : Int) ∧
      (∃ info, prepareUpload rejectingWorld sampleDriver sampleDir sampleStream = .ok info ∧ (1 :
          Int) ≤ info.TotalChunks) ∧
      (∀ j : Int, 1 ≤ j → j < (1 : Int) → ∃ b q, rejectingWorld.upload j = .response 200 b q)) :=
  ⟨by decide,
    Put_chunk_failure sampleDriver rejectingWorld sampleDir sampleStream true (1 : Int) (500 : Int)
        "server error" emptyPart
      (by decide) (by decide) (by decide) (by decide) (by decide) (by decide) (by decide)⟩

/-- C5. For a `Put` with declared size >= 0: a create-file request, when one is
issued, has a Parts list of length TotalChunks whose i-th entry (0-based) is
the part id and salt returned with status 200 by the upload of chunk i+1, and
the part-upload requests issued before it are those of chunks 1..TotalChunks
in that order; at most one create-file request is issued; for size 0 no chunk
upload is issued and the one create-file request has an empty Parts list. -/
theorem Put_commit_parts (d : Teldrive) (w : World) (dstDir : Obj) (stream : FileStream)
    (up : Bool) (hc1 : 1 ≤ d.ChunkSize) (hc2 : d.ChunkSize ≤ 2000)
    (hs0 : 0 ≤ stream.size) (hs1 : stream.size < 2 ^ 63) :
    ∃ info, prepareUpload w d dstDir stream = .ok info ∧
      (createsOf (Put d w dstDir stream up).trace).length ≤ 1 ∧
      (∀ req ∈ createsOf (Put d w dstDir stream up).trace,
        (req.Parts.length : Int) = info.TotalChunks ∧
        (∀ (i : Nat) (fp : FilePart), req.Parts[i]? = some fp →
          ∃ body p, w.upload ((i : Int) + 1) = .response 200 body p ∧
            fp = { ID := p.PartId, Salt := p.Salt }) ∧
        (uploadsOf (Put d w dstDir stream up).trace).map (fun r => r.partNo) =
          (List.range info.TotalChunks.toNat).map (fun i : Nat => fmtD ((i : Int) + 1))) ∧
      (stream.size = 0 →
        uploadsOf (Put d w dstDir stream up).trace = [] ∧
        ∃ req, createsOf (Put d w dstDir stream up).trace = [req] ∧ req.Parts = []) := by
  refine ⟨planOf w d dstDir stream, prepareUpload_ok w d dstDir stream hc1 hc2 hs0 hs1, ?_⟩
  rcases eq_or_lt_of_le hs0 with hz | hpos
  · have hz' : stream.size = 0 := hz.symm
    have hput := Put_zero d w dstDir stream up hc1 hc2 hz'
    obtain ⟨hcr, hupl, -⟩ := createFile_creates w stream (planOf w d dstDir stream) []
    have hT : (planOf w d dstDir stream).TotalChunks = 0 := by
      simp [planOf, hz']
    rw [hput, hcr, hupl]
    refine ⟨by simp [createsOf], ?_, ?_⟩
    · intro req hreq
      simp only [createsOf, List.nil_append, List.mem_singleton] at hreq
      subst hreq
      rw [hT]
      refine ⟨by simp [commitReq, planOf], ?_, by simp [uploadsOf]⟩
      intro i fp hfp
      simp [commitReq, planOf] at hfp
    · intro _
      exact ⟨by simp [uploadsOf], commitReq w stream (planOf w d dstDir stream),
        by simp [createsOf], by simp [commitReq, planOf]⟩
  · have hP := planOf_planOK w d dstDir stream hc1 hc2 hpos hs1
    have hput := Put_pos d w dstDir stream up hc1 hc2 hpos hs1
    have hTp := hP.T_pos
    obtain ⟨m, hm, htr, -, -, hcases⟩ :=
      loopOf_run d w stream (planOf w d dstDir stream) up hP
    obtain ⟨m', -, hupl, hcre⟩ := uploadsOf_loopOf d w stream (planOf w d dstDir stream) up hP
    cases herr : (loopOf d w stream (planOf w d dstDir stream) up).1 with
    | some e =>
      rw [herr] at hput
      simp only at hput
      rw [hput]
      simp only [hcre]
      refine ⟨by simp, by simp, fun h => by omega⟩
    | none =>
      rw [herr] at hput
      simp only at hput
      rw [hput]
      obtain ⟨hcr, hupl', -⟩ := createFile_creates w stream
        { planOf w d dstDir stream with
          FileChunks := partsOf (loopOf d w stream (planOf w d dstDir stream) up).2 }
        (loopOf d w stream (planOf w d dstDir stream) up).2.trace
      rw [hcr, hupl', hcre]
      rcases hcases with ⟨-, hml, hparts, hall⟩ | ⟨he, -⟩ | ⟨j, e, -, -, he⟩ |
        ⟨j, s, body, p, -, -, -, he⟩
      · subst hml
        obtain ⟨hlen, hget⟩ := filterMap_range_isSome
          (fun i : Nat => okPart w (1 + (i : Int))) _ hall
        refine ⟨by simp, ?_, fun h => by omega⟩
        intro req hreq
        simp only [List.nil_append, List.mem_singleton] at hreq
        subst hreq
        have hP' : (commitReq w stream
            { planOf w d dstDir stream with
              FileChunks := partsOf (loopOf d w stream (planOf w d dstDir stream) up).2 }).Parts =
            ((List.range (planOf w d dstDir stream).TotalChunks.toNat).filterMap
              (fun i : Nat => okPart w (1 + (i : Int)))).map
              (fun part => ({ ID := part.PartId, Salt := part.Salt } : FilePart)) := by
          simp [commitReq, partsOf, hparts]
        rw [hP']
        refine ⟨?_, ?_, ?_⟩
        · rw [List.length_map, hlen]
          omega
        · intro i fp hfp
          rw [List.getElem?_map] at hfp
          have him : i < (planOf w d dstDir stream).TotalChunks.toNat := by
            by_contra hcon
            rw [List.getElem?_eq_none (by rw [hlen]; omega)] at hfp
            simp at hfp
          rw [hget i him] at hfp
          obtain ⟨p, hp⟩ := Option.isSome_iff_exists.mp (hall i him)
          rw [hp] at hfp
          simp only [Option.map_some', Option.some.injEq] at hfp
          obtain ⟨body, hw⟩ := okPart_some hp
          refine ⟨body, p, ?_, hfp.symm⟩
          rw [add_comm]
          exact hw
        · simp only [htr, uploadsOf_append, uploadsOf_run, uploadsOf, List.nil_append,
            List.map_map]
          simp [planReq, Function.comp_def, add_comm]
      · rw [herr] at he; exact absurd he (by simp)
      · rw [herr] at he; exact absurd he (by simp)
      · rw [herr] at he; exact absurd he (by simp)

/-- The theorem above at sample inputs, its hypotheses discharged. -/
theorem Put_commit_parts_witness :
    ((1 ≤ sampleDriver.ChunkSize) ∧
      (sampleDriver.ChunkSize ≤ 2000) ∧
      (0 ≤ sampleStream.size) ∧
      (sampleStream.size < 2 ^ 63)) ∧
    (∃ info, prepareUpload sampleWorld sampleDriver sampleDir sampleStream = .ok info ∧
      (createsOf (Put sampleDriver sampleWorld sampleDir sampleStream true).trace).length ≤ 1 ∧
      (∀ req ∈ createsOf (Put sampleDriver sampleWorld sampleDir sampleStream true).trace,
        (req.Parts.length : Int) = info.TotalChunks ∧
        (∀ (i : Nat) (fp : FilePart), req.Parts[i]? = some fp →
          ∃ body p, sampleWorld.upload ((i : Int) + 1) = .response 200 body p ∧
            fp = { ID := p.PartId, Salt := p.Salt }) ∧
        (uploadsOf (Put sampleDriver sampleWorld sampleDir sampleStream true).trace).map (fun r =>
            r.partNo) =
          (List.range info.TotalChunks.toNat).map (fun i : Nat => fmtD ((i : Int) + 1))) ∧
      (sampleStream.size = 0 →
        uploadsOf (Put sampleDriver sampleWorld sampleDir sampleStream true).trace = [] ∧
        ∃ req, createsOf (Put sampleDriver sampleWorld sampleDir sampleStream true).trace = [req] ∧
            req.Parts = [])) :=
  ⟨by decide,
    Put_commit_parts sampleDriver sampleWorld sampleDir sampleStream true
      (by decide) (by decide) (by decide) (by decide)⟩

/-- C6 (amended). For two plans of `prepareUpload` whose destination ids contain
no colon: equal tuples (destinationId, fileName, size, userId) give the same
upload id; tuples that are not equal give different strings
"dest:name:size:userId", hence, MD5 taken as injective, different upload ids. -/
theorem prepareUpload_uploadID_injective (w : World) (d1 d2 : Teldrive) (dir1 dir2 : Obj)
    (s1 s2 : FileStream) (info1 info2 : UploadInfo)
    (hp1 : prepareUpload w d1 dir1 s1 = .ok info1)
    (hp2 : prepareUpload w d2 dir2 s2 = .ok info2)
    (hc1 : ':' ∉ dir1.ID.data) (hc2 : ':' ∉ dir2.ID.data) :
    ((dir1.ID, s1.name, s1.size, d1.userId) = (dir2.ID, s2.name, s2.size, d2.userId) →
      info1.UploadID = info2.UploadID) ∧
    ((dir1.ID, s1.name, s1.size, d1.userId) ≠ (dir2.ID, s2.name, s2.size, d2.userId) →
      uploadKey dir1.ID s1.name s1.size d1.userId ≠
        uploadKey dir2.ID s2.name s2.size d2.userId ∧
      (Function.Injective w.md5hex → info1.UploadID ≠ info2.UploadID)) := by
  rw [prepareUpload_uploadID hp1, prepareUpload_uploadID hp2]
  constructor
  · intro h
    simp only [Prod.mk.injEq] at h
    obtain ⟨h1, h2, h3, h4⟩ := h
    rw [h1, h2, h3, h4]
  · intro hne
    have hkey : uploadKey dir1.ID s1.name s1.size d1.userId ≠
        uploadKey dir2.ID s2.name s2.size d2.userId := by
      intro h
      obtain ⟨h1, h2, h3, h4⟩ := uploadKey_injective hc1 hc2 h
      exact hne (by rw [h1, h2, h3, h4])
    exact ⟨hkey, fun hinj h => hkey (hinj h)⟩

/-- C6, counterexample. The tuples ("a:b", "c", 1, 7) and ("a", "b:c", 1, 7) are
not equal and `prepareUpload` hashes the same string "a:b:c:1:7" for both, so
they get the same upload id whatever the hash function is. -/
theorem prepareUpload_uploadID_counterexample :
    (("a:b", "c", (1 : Int), (7 : Int)) ≠ ("a", "b:c", (1 : Int), (7 : Int))) ∧
      uploadKey "a:b" "c" 1 7 = uploadKey "a" "b:c" 1 7 ∧
      ∀ w : World,
        (prepareUpload w sampleDriver { sampleDir with ID := "a:b" }
            { name := "c", size := 1, data := [0] }).map (fun info => info.UploadID) =
          (prepareUpload w sampleDriver { sampleDir with ID := "a" }
            { name := "b:c", size := 1, data := [0] }).map (fun info => info.UploadID) := by
  refine ⟨by decide, by decide, ?_⟩
  intro w
  rfl

/-- The theorem above at sample inputs, its hypotheses discharged. -/
theorem prepareUpload_uploadID_injective_witness :
    (prepareUpload sampleWorld sampleDriver sampleDir sampleStream =
        .ok (planOf sampleWorld sampleDriver sampleDir sampleStream) ∧
      prepareUpload sampleWorld sampleDriver sampleDir zeroStream =
        .ok (planOf sampleWorld sampleDriver sampleDir zeroStream) ∧
      ':' ∉ sampleDir.ID.data) ∧
    (((sampleDir.ID, sampleStream.name, sampleStream.size, sampleDriver.userId) =
        (sampleDir.ID, zeroStream.name, zeroStream.size, sampleDriver.userId) →
      (planOf sampleWorld sampleDriver sampleDir sampleStream).UploadID =
        (planOf sampleWorld sampleDriver sampleDir zeroStream).UploadID) ∧
    ((sampleDir.ID, sampleStream.name, sampleStream.size, sampleDriver.userId) ≠
        (sampleDir.ID, zeroStream.name, zeroStream.size, sampleDriver.userId) →
      uploadKey sampleDir.ID sampleStream.name sampleStream.size sampleDriver.userId ≠
        uploadKey sampleDir.ID zeroStream.name zeroStream.size sampleDriver.userId ∧
      (Function.Injective sampleWorld.md5hex →
        (planOf sampleWorld sampleDriver sampleDir sampleStream).UploadID ≠
          (planOf sampleWorld sampleDriver sampleDir zeroStream).UploadID))) :=
  ⟨⟨by decide, by decide, by decide⟩,
    prepareUpload_uploadID_injective sampleWorld sampleDriver sampleDriver sampleDir sampleDir
      sampleStream zeroStream _ _ (by decide) (by decide) (by decide) (by decide)⟩

/-- C7. In a successful `uploadMultipart` run on the plan of `prepareUpload`, with
size > 0 and a progress callback, the events are, for chunk 1, 2, ...,
TotalChunks in this order (at least one chunk), the part-upload request of the
chunk followed by one call of the callback. The value of the i-th call
(0-based) is `float64(uploaded)/float64(size)*100` computed in `float64`
arithmetic, where `uploaded`, between 1 and `size`, is the sum of the body
lengths of the first i+1 requests; it differs from the exact quotient
`uploaded/size*100` by at most 100/2^50. The values are non-decreasing and
the last one is exactly 100. -/
theorem uploadMultipart_progress (d : Teldrive) (w : World) (dstDir : Obj)
    (stream : FileStream) (info : UploadInfo)
    (hc1 : 1 ≤ d.ChunkSize) (hc2 : d.ChunkSize ≤ 2000)
    (hs0 : 0 < stream.size) (hs1 : stream.size < 2 ^ 63)
    (hinfo : prepareUpload w d dstDir stream = .ok info)
    (hsucc : (uploadMultipart d w stream info true).1 = none) :
    1 ≤ info.TotalChunks ∧
    (uploadsOf (uploadMultipart d w stream info true).2.2).length =
      info.TotalChunks.toNat ∧
    (progressOf (uploadMultipart d w stream info true).2.2).length =
      info.TotalChunks.toNat ∧
    (uploadMultipart d w stream info true).2.2 =
      (List.zipWith (fun r v => [Event.uploadChunk r, Event.progress v])
        (uploadsOf (uploadMultipart d w stream info true).2.2)
        (progressOf (uploadMultipart d w stream info true).2.2)).flatten ∧
    (∀ (i : Nat) (v : F64),
      (progressOf (uploadMultipart d w stream info true).2.2)[i]? = some v →
        ∃ uploaded : Int,
          uploaded =
            ((((uploadsOf (uploadMultipart d w stream info true).2.2).take (i + 1)).map
              (fun r => r.body.length)).sum : Nat) ∧
          1 ≤ uploaded ∧ uploaded ≤ stream.size ∧
          v = f64Mul (f64Div (f64OfInt uploaded) (f64OfInt stream.size)) 100 ∧
          |v - (uploaded : ℚ) / (stream.size : ℚ) * 100| ≤ 100 / 2 ^ 50) ∧
    List.Pairwise (fun a b => a ≤ b)
      (progressOf (uploadMultipart d w stream info true).2.2) ∧
    (progressOf (uploadMultipart d w stream info true).2.2).getLast? = some 100 := by
  have hP := planOf_planOK w d dstDir stream hc1 hc2 hs0 hs1
  have hplan := prepareUpload_ok w d dstDir stream hc1 hc2 (le_of_lt hs0) hs1
  rw [hplan] at hinfo
  injection hinfo with hinfo
  rw [hinfo] at hP
  clear hinfo hplan
  have hTp := hP.T_pos
  have hcs := hP.cs_pos
  rw [uploadMultipart_eq] at hsucc
  have htr := loopOf_trace_success d w stream info hP hsucc
  have htr' : (uploadMultipart d w stream info true).2.2 =
      (List.range info.TotalChunks.toNat).flatMap (fun i : Nat =>
        [Event.uploadChunk
            (planReq d info stream.data stream.size info.TotalChunks (1 + (i : Int))),
          Event.progress
            (progressPercent (planOff stream.size info.ChunkSize (1 + (i : Int) + 1))
              stream.size)]) := by
    rw [uploadMultipart_eq]
    exact htr
  have hU := uploadsOf_pairs
    (fun i : Nat => planReq d info stream.data stream.size info.TotalChunks (1 + (i : Int)))
    (fun i : Nat =>
      progressPercent (planOff stream.size info.ChunkSize (1 + (i : Int) + 1)) stream.size)
    info.TotalChunks.toNat
  have hV := progressOf_pairs
    (fun i : Nat => planReq d info stream.data stream.size info.TotalChunks (1 + (i : Int)))
    (fun i : Nat =>
      progressPercent (planOff stream.size info.ChunkSize (1 + (i : Int) + 1)) stream.size)
    info.TotalChunks.toNat
  simp only [] at hU hV
  rw [htr', hU, hV]
  refine ⟨hTp, by simp, by simp, ?_, ?_, ?_, ?_⟩
  · rw [List.zipWith_map, List.zipWith_same, List.flatMap_def]
  · intro i v hv
    rw [List.getElem?_map] at hv
    have him : i < info.TotalChunks.toNat := by
      by_contra hcon
      rw [List.getElem?_eq_none (by simpa using hcon)] at hv
      simp at hv
    rw [List.getElem?_range him] at hv
    simp only [Option.map_some', Option.some.injEq] at hv
    have hk1 : (1 : Int) ≤ 1 + (i : Int) := by omega
    have hk : 1 + (i : Int) ≤ info.TotalChunks := by omega
    have hp := planLen_pos hP hk1 hk
    have hsum : ((((List.range info.TotalChunks.toNat).map (fun i : Nat =>
        planReq d info stream.data stream.size info.TotalChunks (1 + (i : Int)))).take
        (i + 1)).map (fun r => r.body.length)).sum =
        (planOff stream.size info.ChunkSize (1 + (i : Int) + 1)).toNat := by
      rw [← List.map_take, List.take_range, min_eq_left (by omega), List.map_map]
      simp only [Function.comp_def, planReq_body_length]
      rw [sum_planLen hP (i + 1) (by omega)]
      have e : 1 + ((i + 1 : Nat) : Int) = 1 + (i : Int) + 1 := by push_cast; ring
      rw [e]
    have hnn : 1 ≤ planOff stream.size info.ChunkSize (1 + (i : Int) + 1) := by omega
    refine ⟨planOff stream.size info.ChunkSize (1 + (i : Int) + 1), ?_, hnn, hp.2.2.2.1,
      hv.symm, ?_⟩
    · rw [hsum, Int.toNat_of_nonneg (by omega)]
    · rw [← hv]
      exact progressPercent_err hnn hp.2.2.2.1 hs1
  · rw [List.pairwise_map]
    refine List.Pairwise.imp ?_ (List.pairwise_le_range _)
    intro a b hab
    apply progressPercent_mono _ _ hs0
    · exact planOff_nonneg hcs (le_of_lt hs0) (by omega)
    · exact planOff_mono hcs (by omega)
  · rw [List.getLast?_map, List.getLast?_range, if_neg (by omega)]
    simp only [Option.map_some', Option.some.injEq]
    have e : 1 + ((info.TotalChunks.toNat - 1 : Nat) : Int) + 1 = info.TotalChunks + 1 := by
      omega
    rw [e, planOff_succ_last hP]
    exact progressPercent_self hs0

/-- The theorem above at a stream of three chunks that the remote accepts: the
run succeeds, the callback is called three times, and the first value is
within 100/2^50 of 1048576/2097155*100. -/
theorem uploadMultipart_progress_witness :
    (1 ≤ sampleDriver.ChunkSize ∧ sampleDriver.ChunkSize ≤ 2000 ∧
      0 < threeChunkStream.size ∧ threeChunkStream.size < 2 ^ 63 ∧
      prepareUpload sampleWorld sampleDriver sampleDir threeChunkStream =
        .ok (planOf sampleWorld sampleDriver sampleDir threeChunkStream) ∧
      (uploadMultipart sampleDriver sampleWorld threeChunkStream
        (planOf sampleWorld sampleDriver sampleDir threeChunkStream) true).1 = none) ∧
    (1 ≤ (planOf sampleWorld sampleDriver sampleDir threeChunkStream).TotalChunks ∧
    (uploadsOf (uploadMultipart sampleDriver sampleWorld threeChunkStream (planOf sampleWorld
        sampleDriver sampleDir threeChunkStream) true).2.2).length =
      (planOf sampleWorld sampleDriver sampleDir threeChunkStream).TotalChunks.toNat ∧
    (progressOf (uploadMultipart sampleDriver sampleWorld threeChunkStream (planOf sampleWorld
        sampleDriver sampleDir threeChunkStream) true).2.2).length =
      (planOf sampleWorld sampleDriver sampleDir threeChunkStream).TotalChunks.toNat ∧
    (uploadMultipart sampleDriver sampleWorld threeChunkStream (planOf sampleWorld sampleDriver
        sampleDir threeChunkStream) true).2.2 =
      (List.zipWith (fun r v => [Event.uploadChunk r, Event.progress v])
        (uploadsOf (uploadMultipart sampleDriver sampleWorld threeChunkStream (planOf sampleWorld
            sampleDriver sampleDir threeChunkStream) true).2.2)
        (progressOf (uploadMultipart sampleDriver sampleWorld threeChunkStream (planOf sampleWorld
            sampleDriver sampleDir threeChunkStream) true).2.2)).flatten ∧
    (∀ (i : Nat) (v : F64),
      (progressOf (uploadMultipart sampleDriver sampleWorld threeChunkStream (planOf sampleWorld
          sampleDriver sampleDir threeChunkStream) true).2.2)[i]? = some v →
        ∃ uploaded : Int,
          uploaded =
            ((((uploadsOf (uploadMultipart sampleDriver sampleWorld threeChunkStream (planOf
                sampleWorld sampleDriver sampleDir threeChunkStream) true).2.2).take (i + 1)).map
              (fun r => r.body.length)).sum : Nat) ∧
          1 ≤ uploaded ∧ uploaded ≤ threeChunkStream.size ∧
          v = f64Mul (f64Div (f64OfInt uploaded) (f64OfInt threeChunkStream.size)) 100 ∧
          |v - (uploaded : ℚ) / (threeChunkStream.size : ℚ) * 100| ≤ 100 / 2 ^ 50) ∧
    List.Pairwise (fun a b => a ≤ b)
      (progressOf (uploadMultipart sampleDriver sampleWorld threeChunkStream (planOf sampleWorld
          sampleDriver sampleDir threeChunkStream) true).2.2) ∧
    (progressOf (uploadMultipart sampleDriver sampleWorld threeChunkStream (planOf sampleWorld
        sampleDriver sampleDir threeChunkStream) true).2.2).getLast? = some 100) ∧
    (progressOf (uploadMultipart sampleDriver sampleWorld threeChunkStream
      (planOf sampleWorld sampleDriver sampleDir threeChunkStream) true).2.2).length = 3 ∧
    ∃ v : F64,
      (progressOf (uploadMultipart sampleDriver sampleWorld threeChunkStream
        (planOf sampleWorld sampleDriver sampleDir threeChunkStream) true).2.2)[0]? = some v ∧
      |v - (1048576 : ℚ) / 2097155 * 100| ≤ 100 / 2 ^ 50 :=
  have hplan := prepareUpload_ok sampleWorld sampleDriver sampleDir threeChunkStream
    (by decide) (by decide) (by decide) (by decide)
  have hsucc := (uploadMultipart_full_success sampleDriver sampleWorld threeChunkStream
    (planOf sampleWorld sampleDriver sampleDir threeChunkStream) true threeChunk_planOK
    threeChunk_full (fun k _ _ => sampleWorld_accepts k)).1
  have h := uploadMultipart_progress sampleDriver sampleWorld sampleDir threeChunkStream
    (planOf sampleWorld sampleDriver sampleDir threeChunkStream)
    (by decide) (by decide) (by decide) (by decide) hplan hsucc
  have hlen : (progressOf (uploadMultipart sampleDriver sampleWorld threeChunkStream
      (planOf sampleWorld sampleDriver sampleDir threeChunkStream) true).2.2).length = 3 := by
    rw [h.2.2.1, threeChunk_total]; rfl
  ⟨⟨by decide, by decide, by decide, by decide, hplan, hsucc⟩, h, hlen, by
    obtain ⟨v, hv⟩ : ∃ v, (progressOf (uploadMultipart sampleDriver sampleWorld
        threeChunkStream (planOf sampleWorld sampleDriver sampleDir threeChunkStream)
        true).2.2)[0]? = some v := by
      rw [List.getElem?_eq_getElem (by rw [hlen]; decide)]
      exact ⟨_, rfl⟩
    obtain ⟨uploaded, hup, -, -, -, herr⟩ := h.2.2.2.2.1 0 v hv
    rw [threeChunk_first_length] at hup
    rw [hup] at herr
    refine ⟨v, hv, ?_⟩
    have e : ((threeChunkStream.size : Int) : ℚ) = 2097155 := by
      simp only [threeChunkStream]
      norm_num
    rw [e] at herr
    push_cast at herr
    exact herr⟩

/-- C8. For a configuration whose cookie starts with "access_token=": `Init`
returns a chunk-size error without any network request exactly when the
configured ChunkSize is negative or greater than 2000 (the error says "at
least 1" for a negative value and "at most 2000" for a large one); otherwise
validation passes with ChunkSize 10 when 0 was configured and the configured
value when it lies in [1, 2000], so the effective ChunkSize lies in
[1, 2000], `Init` goes on to the session request, and a driver it returns
keeps that ChunkSize. -/
theorem Init_chunk_size_validation (d : Teldrive) (w : World)
    (hc : hasPrefix d.Cookie "access_token=" = true) :
    ((∃ e, Init d w = ⟨.error e, []⟩) ↔ (d.ChunkSize < 0 ∨ 2000 < d.ChunkSize)) ∧
    (d.ChunkSize < 0 → Init d w = ⟨.error (.chunkSizeTooSmall 1), []⟩) ∧
    (2000 < d.ChunkSize → Init d w = ⟨.error (.chunkSizeTooLarge 2000), []⟩) ∧
    (0 ≤ d.ChunkSize → d.ChunkSize ≤ 2000 →
      ∃ d', initConfig d = .ok d' ∧
        d'.ChunkSize = (if d.ChunkSize = 0 then 10 else d.ChunkSize) ∧
        1 ≤ d'.ChunkSize ∧ d'.ChunkSize ≤ 2000 ∧
        (Init d w).trace ≠ [] ∧
        ∀ d'', (Init d w).result = .ok d'' → d''.ChunkSize = d'.ChunkSize) := by
  have hne : d.Cookie ≠ "" := by
    intro h
    rw [h] at hc
    revert hc
    decide
  have hsmall : d.ChunkSize < 0 → Init d w = ⟨.error (.chunkSizeTooSmall 1), []⟩ := by
    intro h
    have h0 : d.ChunkSize ≠ 0 := by omega
    have : d.ChunkSize < 1 := by omega
    by_cases hu : d.UploadConcurrency = 0 <;>
      simp [Init, initConfig, hc, hne, h0, minChunkSize, hu, this]
  have hlarge : 2000 < d.ChunkSize → Init d w = ⟨.error (.chunkSizeTooLarge 2000), []⟩ := by
    intro h
    have h0 : d.ChunkSize ≠ 0 := by omega
    have h1 : ¬ d.ChunkSize < 1 := by omega
    by_cases hu : d.UploadConcurrency = 0 <;>
      simp [Init, initConfig, hc, hne, h0, minChunkSize, maxChunkSize, hu, h1, h]
  refine ⟨⟨?_, ?_⟩, hsmall, hlarge, ?_⟩
  · rintro ⟨e, he⟩
    by_contra hcon
    obtain ⟨d', hd, -⟩ := initConfig_in_range d hc (by omega) (by omega)
    have := (Init_of_initConfig_ok d d' w hd).1
    rw [he] at this
    exact this rfl
  · rintro (h | h)
    · exact ⟨_, hsmall h⟩
    · exact ⟨_, hlarge h⟩
  · intro h0 h1
    obtain ⟨d', hd, hcs⟩ := initConfig_in_range d hc h0 h1
    obtain ⟨ht, hr⟩ := Init_of_initConfig_ok d d' w hd
    refine ⟨d', hd, hcs, ?_, ?_, ht, hr⟩
    · rw [hcs]; split <;> omega
    · rw [hcs]; split <;> omega

/-- The theorem above at sample inputs, its hypotheses discharged. -/
theorem Init_chunk_size_validation_witness :
    ((hasPrefix sampleDriver.Cookie "access_token=" = true)) ∧
    (((∃ e, Init sampleDriver sampleWorld = ⟨.error e, []⟩) ↔ (sampleDriver.ChunkSize < 0 ∨ 2000 <
        sampleDriver.ChunkSize)) ∧
    (sampleDriver.ChunkSize < 0 → Init sampleDriver sampleWorld = ⟨.error (.chunkSizeTooSmall 1),
        []⟩) ∧
    (2000 < sampleDriver.ChunkSize → Init sampleDriver sampleWorld = ⟨.error (.chunkSizeTooLarge
        2000), []⟩) ∧
    (0 ≤ sampleDriver.ChunkSize → sampleDriver.ChunkSize ≤ 2000 →
      ∃ d', initConfig sampleDriver = .ok d' ∧
        d'.ChunkSize = (if sampleDriver.ChunkSize = 0 then 10 else sampleDriver.ChunkSize) ∧
        1 ≤ d'.ChunkSize ∧ d'.ChunkSize ≤ 2000 ∧
        (Init sampleDriver sampleWorld).trace ≠ [] ∧
        ∀ d'', (Init sampleDriver sampleWorld).result = .ok d'' → d''.ChunkSize = d'.ChunkSize)) :=
  ⟨by decide,
    Init_chunk_size_validation sampleDriver sampleWorld
      (by decide)⟩

/-- C9. Under the plan of `prepareUpload` for a stream of size > 0, the part name
of chunk k (1 <= k <= TotalChunks) is the bare file name when TotalChunks is 1,
and otherwise the file name, ".part.", and a string of at least three decimal
digits that denotes k and has no leading zero beyond the third-last place; the
i-th part-upload request of `uploadMultipart` (0-based) carries the part name
of chunk i+1, and two different requests of one upload carry different part
names. When the stream holds the declared bytes the request of chunk 1 is
sent, and when moreover every chunk upload returns 200 the part names sent
are exactly those of chunks 1..TotalChunks in this order. -/
theorem uploadMultipart_part_names (d : Teldrive) (w : World) (dstDir : Obj)
    (stream : FileStream) (up : Bool)
    (hc1 : 1 ≤ d.ChunkSize) (hc2 : d.ChunkSize ≤ 2000)
    (hs0 : 0 < stream.size) (hs1 : stream.size < 2 ^ 63) :
    ∃ info, prepareUpload w d dstDir stream = .ok info ∧
      (∀ k : Int, 1 ≤ k → k ≤ info.TotalChunks →
        (info.TotalChunks = 1 → chunkName info info.TotalChunks k = stream.name) ∧
        (info.TotalChunks ≠ 1 →
          ∃ ds : List Char,
            chunkName info info.TotalChunks k = stream.name ++ ".part." ++ String.mk ds ∧
            3 ≤ ds.length ∧ (∀ c ∈ ds, isDigitChar c) ∧ (parseDec ds : Int) = k ∧
            (3 < ds.length → ∃ c t, ds = c :: t ∧ c ≠ '0'))) ∧
      (∀ (i : Nat) (r : UploadReq),
        (uploadsOf (uploadMultipart d w stream info up).2.2)[i]? = some r →
          r.partNo = fmtD ((i : Int) + 1) ∧
          r.partName = chunkName info info.TotalChunks ((i : Int) + 1)) ∧
      (∀ (i j : Nat) (r1 r2 : UploadReq),
        (uploadsOf (uploadMultipart d w stream info up).2.2)[i]? = some r1 →
        (uploadsOf (uploadMultipart d w stream info up).2.2)[j]? = some r2 →
        i ≠ j → r1.partName ≠ r2.partName) ∧
      (stream.size ≤ stream.data.length →
        ∃ r, (uploadsOf (uploadMultipart d w stream info up).2.2)[0]? = some r) ∧
      (stream.size ≤ stream.data.length →
        (∀ k : Int, 1 ≤ k → k ≤ info.TotalChunks →
          ∃ body p, w.upload k = .response 200 body p) →
        (uploadsOf (uploadMultipart d w stream info up).2.2).map (fun r => r.partName) =
          (List.range info.TotalChunks.toNat).map
            (fun i : Nat => chunkName info info.TotalChunks ((i : Int) + 1))) := by
  refine ⟨planOf w d dstDir stream,
    prepareUpload_ok w d dstDir stream hc1 hc2 (le_of_lt hs0) hs1, ?_⟩
  have hP := planOf_planOK w d dstDir stream hc1 hc2 hs0 hs1
  have hname : (planOf w d dstDir stream).FileName = stream.name := rfl
  generalize planOf w d dstDir stream = info at hP hname ⊢
  have hTp := hP.T_pos
  refine ⟨?_, ?_, ?_, ?_, ?_⟩
  · intro k hk1 hk
    constructor
    · intro hT
      unfold chunkName
      rw [if_neg (by omega), hname]
    · intro hT
      have hT1 : 1 < info.TotalChunks := by omega
      refine ⟨zeroPad 3 (decimal k.toNat), ?_, zeroPad_length _ _,
        zeroPad_digits _ _ (decimal_digits _), ?_, zeroPad_head⟩
      · rw [chunkName_multi info hT1 (by omega), hname]
      · rw [parseDec_zeroPad, parseDec_decimal]
        omega
  · intro i r hr
    obtain ⟨-, hreq⟩ := uploadsOf_uploadMultipart_get d w stream info up hP i r hr
    rw [hreq]
    exact ⟨rfl, rfl⟩
  · intro i j r1 r2 h1 h2 hij heq
    obtain ⟨hi, hr1⟩ := uploadsOf_uploadMultipart_get d w stream info up hP i r1 h1
    obtain ⟨hj, hr2⟩ := uploadsOf_uploadMultipart_get d w stream info up hP j r2 h2
    rw [hr1, hr2] at heq
    have heq' : chunkName info info.TotalChunks ((i : Int) + 1) =
        chunkName info info.TotalChunks ((j : Int) + 1) := heq
    by_cases hT : 1 < info.TotalChunks
    · have := chunkName_injective info hT (by omega) (by omega) heq'
      omega
    · omega
  · intro hfull
    exact uploadMultipart_first_request d w stream info up hP hfull
  · intro hfull hall
    rw [(uploadMultipart_full_success d w stream info up hP hfull hall).2, List.map_map]
    apply List.map_congr_left
    intro i _
    simp [planReq, add_comm]

/-- The theorem above at a stream of three chunks that the remote accepts: the
part names sent are "a.bin.part.001", "a.bin.part.002" and "a.bin.part.003". -/
theorem uploadMultipart_part_names_witness :
    (1 ≤ sampleDriver.ChunkSize ∧ sampleDriver.ChunkSize ≤ 2000 ∧
      0 < threeChunkStream.size ∧ threeChunkStream.size < 2 ^ 63) ∧
    (∃ info, prepareUpload sampleWorld sampleDriver sampleDir threeChunkStream = .ok info ∧
      (∀ k : Int, 1 ≤ k → k ≤ info.TotalChunks →
        (info.TotalChunks = 1 → chunkName info info.TotalChunks k = threeChunkStream.name) ∧
        (info.TotalChunks ≠ 1 →
          ∃ ds : List Char,
            chunkName info info.TotalChunks k = threeChunkStream.name ++ ".part." ++ String.mk ds ∧
            3 ≤ ds.length ∧ (∀ c ∈ ds, isDigitChar c) ∧ (parseDec ds : Int) = k ∧
            (3 < ds.length → ∃ c t, ds = c :: t ∧ c ≠ '0'))) ∧
      (∀ (i : Nat) (r : UploadReq),
        (uploadsOf (uploadMultipart sampleDriver sampleWorld threeChunkStream info true).2.2)[i]? =
            some r →
          r.partNo = fmtD ((i : Int) + 1) ∧
          r.partName = chunkName info info.TotalChunks ((i : Int) + 1)) ∧
      (∀ (i j : Nat) (r1 r2 : UploadReq),
        (uploadsOf (uploadMultipart sampleDriver sampleWorld threeChunkStream info true).2.2)[i]? =
            some r1 →
        (uploadsOf (uploadMultipart sampleDriver sampleWorld threeChunkStream info true).2.2)[j]? =
            some r2 →
        i ≠ j → r1.partName ≠ r2.partName) ∧
      (threeChunkStream.size ≤ threeChunkStream.data.length →
        ∃ r, (uploadsOf (uploadMultipart sampleDriver sampleWorld threeChunkStream info
            true).2.2)[0]? = some r) ∧
      (threeChunkStream.size ≤ threeChunkStream.data.length →
        (∀ k : Int, 1 ≤ k → k ≤ info.TotalChunks →
          ∃ body p, sampleWorld.upload k = .response 200 body p) →
        (uploadsOf (uploadMultipart sampleDriver sampleWorld threeChunkStream info true).2.2).map
            (fun r => r.partName) =
          (List.range info.TotalChunks.toNat).map
            (fun i : Nat => chunkName info info.TotalChunks ((i : Int) + 1)))) ∧
    (uploadsOf (uploadMultipart sampleDriver sampleWorld threeChunkStream
      (planOf sampleWorld sampleDriver sampleDir threeChunkStream) true).2.2).map
      (fun r => r.partName) = ["a.bin.part.001", "a.bin.part.002", "a.bin.part.003"] :=
  have h := uploadMultipart_part_names sampleDriver sampleWorld sampleDir threeChunkStream true
    (by decide) (by decide) (by decide) (by decide)
  ⟨by decide, h, by
    obtain ⟨info, hinfo, -, -, -, -, hnames⟩ := h
    have hplan := prepareUpload_ok sampleWorld sampleDriver sampleDir threeChunkStream
      (by decide) (by decide) (by decide) (by decide)
    have hi : planOf sampleWorld sampleDriver sampleDir threeChunkStream = info :=
      Except.ok.inj (hplan.symm.trans hinfo)
    subst hi
    rw [hnames threeChunk_full (fun k _ _ => sampleWorld_accepts k), threeChunk_total]
    decide⟩

/-- C10. When the stream holds at least the declared `size > 0` bytes and every
chunk upload returns 200, `uploadMultipart` succeeds and issues exactly
TotalChunks requests; the request for chunk k carries the stream's bytes at
offsets [(k-1)*ChunkSize, min(k*ChunkSize, size)); the bodies concatenated in
order are the first `size` bytes of the stream and their lengths sum to
`size`. -/
theorem uploadMultipart_bodies_partition (d : Teldrive) (w : World) (dstDir : Obj)
    (stream : FileStream) (up : Bool)
    (hc1 : 1 ≤ d.ChunkSize) (hc2 : d.ChunkSize ≤ 2000)
    (hs0 : 0 < stream.size) (hs1 : stream.size < 2 ^ 63)
    (hfull : stream.size ≤ stream.data.length) :
    ∃ info, prepareUpload w d dstDir stream = .ok info ∧
      ((∀ k : Int, 1 ≤ k → k ≤ info.TotalChunks →
          ∃ body p, w.upload k = .response 200 body p) →
        (uploadMultipart d w stream info up).1 = none ∧
        (uploadsOf (uploadMultipart d w stream info up).2.2).length =
          info.TotalChunks.toNat ∧
        (∀ (i : Nat) (r : UploadReq),
          (uploadsOf (uploadMultipart d w stream info up).2.2)[i]? = some r →
            r.partNo = fmtD ((i : Int) + 1) ∧
            r.body =
              (stream.data.take
                (min (((i : Int) + 1) * info.ChunkSize) stream.size).toNat).drop
                ((i : Int) * info.ChunkSize).toNat) ∧
        ((uploadsOf (uploadMultipart d w stream info up).2.2).map
          (fun r => r.body)).flatten = stream.data.take stream.size.toNat ∧
        ((uploadsOf (uploadMultipart d w stream info up).2.2).map
          (fun r => r.body.length)).sum = stream.size.toNat) := by
  refine ⟨planOf w d dstDir stream,
    prepareUpload_ok w d dstDir stream hc1 hc2 (le_of_lt hs0) hs1, ?_⟩
  have hP := planOf_planOK w d dstDir stream hc1 hc2 hs0 hs1
  generalize planOf w d dstDir stream = info at hP ⊢
  intro hall
  have hTp := hP.T_pos
  have hsucc := loopOf_success d w stream info up hP
    (fun k hk1 hk => by rw [planRead_full stream.data hP hk1 hk hfull]; simp)
    (fun k hk1 hk => by
      obtain ⟨body, p, hw⟩ := hall k hk1 hk
      simp [okPart, hw])
  have hups : uploadsOf (uploadMultipart d w stream info up).2.2 =
      (List.range info.TotalChunks.toNat).map (fun i : Nat =>
        planReq d info stream.data stream.size info.TotalChunks (1 + (i : Int))) := by
    rw [uploadMultipart_eq]
    simp only [hsucc.2.1, uploadsOf_run]
  have hflat : ((uploadsOf (uploadMultipart d w stream info up).2.2).map
      (fun r => r.body)).flatten = stream.data.take stream.size.toNat := by
    rw [hups, List.map_map]
    have := flatten_bodies d info stream.data hP hfull info.TotalChunks.toNat (by omega)
    simp only [Function.comp_def]
    rw [this, Int.toNat_of_nonneg (by omega), planOff_succ_last hP]
  refine ⟨?_, ?_, ?_, hflat, ?_⟩
  · rw [uploadMultipart_eq]
    exact hsucc.1
  · rw [hups]
    simp
  · intro i r hr
    rw [hups, List.getElem?_map] at hr
    have him : i < info.TotalChunks.toNat := by
      by_contra hcon
      rw [List.getElem?_eq_none (by simpa using hcon)] at hr
      simp at hr
    rw [List.getElem?_range him] at hr
    simp only [Option.map_some', Option.some.injEq] at hr
    subst hr
    have hk1 : (1 : Int) ≤ 1 + (i : Int) := by omega
    have hk : 1 + (i : Int) ≤ info.TotalChunks := by omega
    refine ⟨by simp [planReq, add_comm], ?_⟩
    rw [planReq_body_full d info stream.data hP hk1 hk hfull]
    rw [planOff_of_le hP hk]
    have e1 : planOff stream.size info.ChunkSize (1 + (i : Int) + 1) =
        min (((i : Int) + 1) * info.ChunkSize) stream.size := by
      unfold planOff
      congr 1
      ring
    have e2 : info.ChunkSize * (1 + (i : Int) - 1) = (i : Int) * info.ChunkSize := by ring
    rw [e1, e2]
  · have hlen := congrArg List.length hflat
    rw [List.length_flatten, List.map_map, List.length_take] at hlen
    simp only [Function.comp_def] at hlen
    rw [hlen]
    omega

/-- The theorem above at sample inputs, its hypotheses discharged. -/
theorem uploadMultipart_bodies_partition_witness :
    ((1 ≤ sampleDriver.ChunkSize) ∧
      (sampleDriver.ChunkSize ≤ 2000) ∧
      (0 < sampleStream.size) ∧
      (sampleStream.size < 2 ^ 63) ∧
      (sampleStream.size ≤ sampleStream.data.length)) ∧
    (∃ info, prepareUpload sampleWorld sampleDriver sampleDir sampleStream = .ok info ∧
      ((∀ k : Int, 1 ≤ k → k ≤ info.TotalChunks →
          ∃ body p, sampleWorld.upload k = .response 200 body p) →
        (uploadMultipart sampleDriver sampleWorld sampleStream info true).1 = none ∧
        (uploadsOf (uploadMultipart sampleDriver sampleWorld sampleStream info true).2.2).length =
          info.TotalChunks.toNat ∧
        (∀ (i : Nat) (r : UploadReq),
          (uploadsOf (uploadMultipart sampleDriver sampleWorld sampleStream info true).2.2)[i]? =
              some r →
            r.partNo = fmtD ((i : Int) + 1) ∧
            r.body =
              (sampleStream.data.take
                (min (((i : Int) + 1) * info.ChunkSize) sampleStream.size).toNat).drop
                ((i : Int) * info.ChunkSize).toNat) ∧
        ((uploadsOf (uploadMultipart sampleDriver sampleWorld sampleStream info true).2.2).map
          (fun r => r.body)).flatten = sampleStream.data.take sampleStream.size.toNat ∧
        ((uploadsOf (uploadMultipart sampleDriver sampleWorld sampleStream info true).2.2).map
          (fun r => r.body.length)).sum = sampleStream.size.toNat)) :=
  ⟨by decide,
    uploadMultipart_bodies_partition sampleDriver sampleWorld sampleDir sampleStream true
      (by decide) (by decide) (by decide) (by decide) (by decide)⟩

end TeldriveDriver
